import Mathlib

/-!
Verification of the segmentation engine of the annmas repository
(src/src/annmas/segment/command.py).

The development shallowly embeds the data model and the operations of the
segment command: the per-read segment decoder, the two delimiter-matching
modes of the function named write_segmented_read in the source (simple
splitting and bounded-region splitting), the array-element writer, and the
producer / worker / writer shutdown protocol of the main pipeline.

Python conventions are modelled explicitly: inclusive 0-based coordinates
are integers, Python slicing is pySlice, Python (possibly negative) list
indexing is pyGet, and an uncaught IndexError of a list access is an
Option.none result of the operation that performs it.
-/

set_option maxHeartbeats 1000000

/-- One labeled segment of a read, as produced by the annotate stage and
decoded by get_segments.  The field stop embeds the field named end in the
source (a reserved word here); both coordinates are inclusive, 0-based. -/
structure SegmentInfo where
  name : String
  start : Int
  stop : Int
deriving Repr, DecidableEq

/-- A read record, restricted to the fields the segment command reads:
name, sequence, base qualities and the tag mapping.  Tag values are kept
as strings. -/
structure AlignedRead where
  query_name : String
  query_sequence : List Char
  query_qualities : List Nat
  tags : List (String × String)
deriving Repr, DecidableEq

/-- An output record built by write_split_array_element.  The source
serializes the recomputed segment annotation into the tag string and the
span into the record name; the embedding additionally records the filtered
segment list and the span as fields so that theorems can speak about them
directly. -/
structure SplitRecord where
  query_name : String
  query_sequence : List Char
  query_qualities : List Nat
  tags : List (String × String)
  flag : Nat
  mapping_quality : Nat
  segmentsTag : List SegmentInfo
  start_coord : Int
  end_coord : Int
deriving Repr, DecidableEq

/-- Clamp of one boundary of a Python slice expression to the index range
of a list of the given length (negative values count from the end). -/
def pyIndex (len : Nat) (i : Int) : Nat :=
  if i < 0 then (i + len).toNat else min i.toNat len

/-- Python slice xs[a:b] (step 1). -/
def pySlice {α : Type} (xs : List α) (a b : Int) : List α :=
  (xs.take (pyIndex xs.length b)).drop (pyIndex xs.length a)

/-- Python list indexing xs[i], with negative indices counting from the
end; none models an IndexError. -/
def pyGet {α : Type} (xs : List α) (i : Int) : Option α :=
  let j : Int := if i < 0 then i + xs.length else i
  if j < 0 then none else xs.get? j.toNat

/-- Embedding of write_split_array_element: builds the single output
record for one located array element.  The bam write side effect is
modelled by returning the record. -/
def write_split_array_element (read : AlignedRead) (segments : List SegmentInfo)
    (start_coord end_coord seg_start_coord seg_end_coord : Int)
    (delim_name prev_delim_name : String) : SplitRecord where
  query_name := read.query_name ++ "_" ++ toString start_coord ++ "-" ++ toString end_coord
      ++ "_" ++ prev_delim_name ++ "-" ++ delim_name
  query_sequence := pySlice read.query_sequence start_coord (end_coord + 1)
  query_qualities := pySlice read.query_qualities start_coord (end_coord + 1)
  tags := read.tags
  flag := 4
  mapping_quality := 255
  segmentsTag := segments.filter fun s =>
    decide (seg_start_coord ≤ s.start) && decide (s.start ≤ seg_end_coord)
  start_coord := start_coord
  end_coord := end_coord

/-! ## Simple splitting mode -/

/-- Per-delimiter-window matcher state of the simple splitting mode: the
running match index (delimiter_match_matrix entry), the captured start
segment (delimiter_start_segments entry) and the recorded boundary pair
(delimiter_end_segment_tuples entry). -/
structure SimpleState where
  dmi : Nat
  startSeg : Option SegmentInfo
  endTuple : Option (SegmentInfo × SegmentInfo)
deriving Repr, DecidableEq

def simpleInit : SimpleState := ⟨0, none, none⟩

/-- One iteration of the inner loop of the simple splitting scan for one
window: a hit on the expected label advances the counter (capturing the
start segment on the first hit and the boundary pair on completion), a
miss resets the window, and an index past the window length (the caught
IndexError of the source) leaves the state untouched.
When the counter completes, the source stores the pair
(delimiter_start_segments i, seg); at that point the start-segment slot
always holds a value, so the getD default is unreachable. -/
def simpleStep (w : List String) (st : SimpleState) (seg : SegmentInfo) : SimpleState :=
  match w.get? st.dmi with
  | none => st
  | some expected =>
    if seg.name = expected then
      let startSeg := if st.dmi = 0 then some seg else st.startSeg
      let dmi := st.dmi + 1
      let endTuple := if dmi = w.length then some (startSeg.getD seg, seg) else st.endTuple
      ⟨dmi, startSeg, endTuple⟩
    else
      ⟨0, none, none⟩

/-- The scan of the segment list of the simple splitting mode: the outer
loop walks the segments once, the inner loop updates every window's state
(the source keeps the states in three parallel lists indexed like the
window list). -/
def simpleScan (windows : List (List String)) (segments : List SegmentInfo) :
    List SimpleState :=
  segments.foldl
    (fun sts seg => List.zipWith (fun w st => simpleStep w st seg) windows sts)
    (windows.map fun _ => simpleInit)

/-- Python xs[-n:]. -/
def takeLast {α : Type} (n : Nat) (xs : List α) : List α :=
  xs.drop (xs.length - n)

/-- Construction of the delimiter windows of the simple splitting mode
from the array element structure: the last two labels of the first element
template, merged with the first two labels of the second, then the first
two labels of every further template.  none models the IndexError the
source raises on an empty structure. -/
def buildDelimiters : List (List String) → Option (List (List String))
  | [] => none
  | s0 :: rest =>
    some (match rest with
      | [] => [takeLast 2 s0]
      | s1 :: rest2 => (takeLast 2 s0 ++ s1.take 2) :: rest2.map (fun s => s.take 2))

/-- One completed boundary of the simple splitting mode, as assembled in
the seg_delimiters list of the source: the window (the source stores its
index and looks the window up again), the current captured start segment
and the recorded (start, end) boundary pair. -/
structure Boundary where
  window : List String
  startSeg : SegmentInfo
  endTuple : SegmentInfo × SegmentInfo
deriving Repr, DecidableEq

/-- Sort order of seg_delimiters: ascending by the start segment's start
coordinate. -/
def boundaryLE (a b : Boundary) : Prop := a.startSeg.start ≤ b.startSeg.start

instance : DecidableRel boundaryLE := fun a b => Int.decLe _ _

instance : IsTotal Boundary boundaryLE :=
  ⟨fun a b => Int.le_total a.startSeg.start b.startSeg.start⟩

instance : IsTrans Boundary boundaryLE := ⟨fun _ _ _ h h' => le_trans h h'⟩

/-- The filtered, sorted seg_delimiters list of the simple splitting mode.
The source's list.sort is a stable sort by the key, as is insertionSort,
so the two agree.  A recorded boundary always has a captured start
segment equal to the first component of its pair, so the getD default is
unreachable. -/
def sortedBoundaries (delims : List (List String)) (segments : List SegmentInfo) :
    List Boundary :=
  let sts := simpleScan delims segments
  let bs := (delims.zip sts).filterMap fun p =>
    p.2.endTuple.map fun et => Boundary.mk p.1 (p.2.startSeg.getD et.1) et
  List.insertionSort boundaryLE bs

/-- The emission loop of the simple splitting mode: one record per sorted
boundary, tracking cur_read_base_index and the previous delimiter name,
followed by the final record up to the last base of the read. -/
def simpleEmit (keep_delimiters : Bool) (read : AlignedRead)
    (segments : List SegmentInfo) : Int → String → List Boundary → List SplitRecord
  | cur, prev, [] =>
    [write_split_array_element read segments cur ((read.query_sequence.length : Int) - 1)
      cur ((read.query_sequence.length : Int) - 1) "END" prev]
  | cur, prev, b :: bs =>
    let seg_start_coord := cur
    let seg_end_coord := b.endTuple.2.stop
    let delim_name := String.intercalate "/" b.window
    let start_coord := seg_start_coord
    let end_coord := if keep_delimiters then seg_end_coord else b.startSeg.start - 1
    write_split_array_element read segments start_coord end_coord seg_start_coord
        seg_end_coord delim_name prev
      :: simpleEmit keep_delimiters read segments
          (if keep_delimiters then b.endTuple.1.start else b.endTuple.2.stop + 1)
          delim_name bs

/-- The simple splitting branch of write_segmented_read: returns the
written records and the returned count (the number of boundary pairs
found).  none models the IndexError on an empty array element
structure. -/
def simple_split (tmpl : List (List String)) (keep_delimiters : Bool)
    (read : AlignedRead) (segments : List SegmentInfo) :
    Option (List SplitRecord × Nat) :=
  (buildDelimiters tmpl).map fun delims =>
    let sorted := sortedBoundaries delims segments
    (simpleEmit keep_delimiters read segments 0 "START" sorted, sorted.length)

/-! ## Bounded-region splitting mode -/

/-- Scoring constants of the bounded-region mode. -/
def match_val : Nat := 2

def indel_val : Nat := 1

/-- Per-template matcher state of the bounded-region mode: match counter,
accumulated matched segments, completion flag and score. -/
structure BoundedState where
  dmi : Nat
  segs : List SegmentInfo
  found : Bool
  score : Nat
deriving Repr, DecidableEq

def boundedInit : BoundedState := ⟨0, [], false, 0⟩

/-- The peek-ahead search of the bounded-region mode: the first offset
peek in range(1, length - dmi) with the template label at dmi + peek equal
to the segment label, returned as the counter jump 1 + peek. -/
def peekAhead (t : List String) (dmi : Nat) (name : String) : Option Nat :=
  ((List.range' 1 (t.length - dmi - 1)).find? fun p => t.get? (dmi + p) == some name).map
    fun p => 1 + p

/-- One iteration of the inner loop of the bounded-region scan for one
template.  A completed template is never touched again; an index past the
template length (the caught IndexError) marks the template complete; an
exact label hit advances by one and scores match_val; otherwise, with a
partial match in progress, the peek-ahead jump advances and scores
indel_val; otherwise the template resets.  After each update the template
is marked complete when the counter reaches the template length. -/
def boundedStep (t : List String) (st : BoundedState) (seg : SegmentInfo) : BoundedState :=
  if st.found then st
  else
    match t.get? st.dmi with
    | none => { st with found := true }
    | some expected =>
      let st1 :=
        if seg.name = expected then
          { st with dmi := st.dmi + 1, segs := st.segs ++ [seg], score := st.score + match_val }
        else
          match (if st.dmi ≠ 0 then peekAhead t st.dmi seg.name else none) with
          | some jump =>
            { st with
                dmi := st.dmi + jump
                segs := st.segs ++ [seg]
                score := st.score + indel_val }
          | none => ⟨0, [], false, 0⟩
      if st1.dmi = t.length then { st1 with found := true } else st1

/-- The scan of the segment list of the bounded-region mode, over every
template of the array element structure. -/
def boundedScan (tmpls : List (List String)) (segments : List SegmentInfo) :
    List BoundedState :=
  segments.foldl
    (fun sts seg => List.zipWith (fun t st => boundedStep t st seg) tmpls sts)
    (tmpls.map fun _ => boundedInit)

/-- The output record of one completed template of the bounded-region
mode: the span is the first to the last captured segment, shrunk to the
second and second-to-last when delimiters are dropped; the segment filter
span is always the full captured span; the record is tagged with the
names of the outermost captured segments.  none models an uncaught
IndexError of the seg_list accesses. -/
def boundedElement (keep_delimiters : Bool) (read : AlignedRead)
    (seg_list : List SegmentInfo) : Option SplitRecord := do
  let start_seg ← pyGet seg_list 0
  let end_seg ← pyGet seg_list (-1)
  let start_coord ← if keep_delimiters then some start_seg.start
    else (pyGet seg_list 1).map (fun s => s.start)
  let end_coord ← if keep_delimiters then some end_seg.stop
    else (pyGet seg_list (-2)).map (fun s => s.stop)
  some (write_split_array_element read seg_list start_coord end_coord start_seg.start
    end_seg.stop end_seg.name start_seg.name)

/-- The write loop of the bounded-region mode: one record per completed
template, in template order; a none of boundedElement (an uncaught
IndexError) aborts the loop. -/
def boundedWritePhase (keep_delimiters : Bool) (read : AlignedRead) :
    List BoundedState → Option (List SplitRecord)
  | [] => some []
  | st :: rest =>
    if st.found then
      match boundedElement keep_delimiters read st.segs with
      | none => none
      | some r => (boundedWritePhase keep_delimiters read rest).map fun rs => r :: rs
    else boundedWritePhase keep_delimiters read rest

/-- The bounded-region branch of write_segmented_read: the records of the
completed templates and the returned sum of the completion flags. -/
def bounded_split (tmpls : List (List String)) (keep_delimiters : Bool)
    (read : AlignedRead) (segments : List SegmentInfo) :
    Option (List SplitRecord × Nat) :=
  let sts := boundedScan tmpls segments
  (boundedWritePhase keep_delimiters read sts).map fun recs =>
    (recs, sts.countP fun st => st.found)

/-- Embedding of write_segmented_read: dispatch on the splitting mode. -/
def write_segmented_read (tmpl : List (List String)) (do_simple_splitting : Bool)
    (keep_delimiters : Bool) (read : AlignedRead) (segments : List SegmentInfo) :
    Option (List SplitRecord × Nat) :=
  if do_simple_splitting then simple_split tmpl keep_delimiters read segments
  else bounded_split tmpl keep_delimiters read segments

/-! ## Segment decoder -/

/-- Modelled from the spec: the key of the segment-annotation side
channel.  The key string itself is defined in the annotate module, which
is outside this component; its concrete value is immaterial here. -/
def SEGMENTS_TAG : String := "SG"

/-- Python read.get_tag: the value of the named tag, none when the tag is
absent (a KeyError in the source). -/
def get_tag (read : AlignedRead) (tag : String) : Option String :=
  read.tags.lookup tag

/-- Modelled from the spec: SegmentInfo.from_tag of the annotate module
(not part of this component) parses one token of the side channel of the
shape label:start-end. -/
def SegmentInfo.fromTag (s : String) : SegmentInfo :=
  match s.splitOn ":" with
  | [name, range] =>
    match range.splitOn "-" with
    | [a, b] => ⟨name, (a.toNat?).getD 0, (b.toNat?).getD 0⟩
    | _ => ⟨name, 0, 0⟩
  | _ => ⟨s, 0, 0⟩

/-- Embedding of get_segments: the read paired with the list of segments
parsed from the pipe-separated segments tag; none models the uncaught
KeyError when the tag is absent.  The source passes the read through as
its serialized string; the writer re-parses it unchanged, so the
embedding keeps the read itself. -/
def get_segments (read : AlignedRead) : Option (AlignedRead × List SegmentInfo) :=
  (get_tag read SEGMENTS_TAG).map fun v =>
    (read, (v.splitOn "|").map SegmentInfo.fromTag)

/-! ## Concrete fixtures used by the example claims -/

def exRead12 : AlignedRead :=
  ⟨"read", List.replicate 12 'G', List.replicate 12 30, [("RG", "grp1")]⟩

def exRead8 : AlignedRead :=
  ⟨"read", List.replicate 8 'G', List.replicate 8 30, [("RG", "grp1")]⟩

def exC1segs : List SegmentInfo :=
  [⟨"A", 0, 1⟩, ⟨"B", 2, 3⟩, ⟨"x", 4, 5⟩, ⟨"x", 6, 7⟩, ⟨"Y", 8, 9⟩, ⟨"Z", 10, 11⟩]

def exC2segs : List SegmentInfo :=
  [⟨"A", 0, 1⟩, ⟨"B", 2, 3⟩, ⟨"Y", 4, 5⟩, ⟨"Z", 6, 7⟩]

def exC3full : List SegmentInfo := [⟨"L1", 0, 1⟩, ⟨"L2", 2, 3⟩, ⟨"L3", 4, 5⟩]

def exC3miss : List SegmentInfo := [⟨"L1", 0, 1⟩, ⟨"L3", 4, 5⟩]

/-- Claim C1, counterexample.  With the structural template of exactly two
element templates, with delimiter windows (A,B) and (Y,Z), the simple mode
merges both windows into the single window (A,B,Y,Z); on the segment list
[A,B,x,x,Y,Z] with keep-delimiters false that window never matches
contiguously, so the one emitted element is the trailing remainder
spanning the whole read, whose span does not lie between B.stop + 1 = 4
and Y.start - 1 = 7 as the claim states. -/
theorem claim_C1_counterexample :
    ((simple_split [["A", "B"], ["Y", "Z"]] false exRead12 exC1segs).map
        fun out => (out.1.map fun r => (r.start_coord, r.end_coord), out.2)) =
      some ([((0 : Int), (11 : Int))], 0) ∧
    ¬ (4 ≤ (0 : Int) ∧ (11 : Int) ≤ 7) := by decide

/-- Claim C1, amended: the two delimiter windows of a two-template
structure are merged into the single four-label window (A,B,Y,Z), which
the segment list [A,B,x,x,Y,Z] does not contain contiguously; splitting
with keep-delimiters false therefore finds no boundary, emits exactly one
element — the trailing remainder spanning the whole read [0, 11] — and
returns 0. -/
theorem claim_C1_amended :
    buildDelimiters [["A", "B"], ["Y", "Z"]] = some [["A", "B", "Y", "Z"]] ∧
    sortedBoundaries [["A", "B", "Y", "Z"]] exC1segs = [] ∧
    ((simple_split [["A", "B"], ["Y", "Z"]] false exRead12 exC1segs).map
        fun out => (out.1.map fun r => (r.start_coord, r.end_coord), out.2)) =
      some ([((0 : Int), (11 : Int))], 0) := by decide

/-- Claim C3: with the single bounded template [L1,L2,L3], the segment
list [L1,L2,L3] completes the template with three exact matches and score
6, and the segment list [L1,L3] completes it via one peek-ahead jump
(capturing exactly the two present segments) with score 2 + 1 = 3; each
case yields exactly one written array element. -/
theorem claim_C3 :
    ((boundedScan [["L1", "L2", "L3"]] exC3full).map fun st => (st.found, st.score)) =
      [(true, 6)] ∧
    ((bounded_split [["L1", "L2", "L3"]] true exRead8 exC3full).map
        fun out => (out.1.length, out.2)) = some (1, 1) ∧
    ((boundedScan [["L1", "L2", "L3"]] exC3miss).map fun st => (st.found, st.score)) =
      [(true, 3)] ∧
    ((boundedScan [["L1", "L2", "L3"]] exC3miss).map fun st => st.segs) = [exC3miss] ∧
    ((bounded_split [["L1", "L2", "L3"]] true exRead8 exC3miss).map
        fun out => (out.1.length, out.2)) = some (1, 1) := by decide

/-! ## Basic lemmas about the Python slice and index embeddings -/

lemma pyIndex_eq_toNat (len : Nat) {i : Int} (h0 : 0 ≤ i) (hle : i ≤ (len : Int)) :
    pyIndex len i = i.toNat := by
  unfold pyIndex
  rw [if_neg (not_lt.mpr h0)]
  exact min_eq_left (Int.toNat_le.mpr hle)

lemma pySlice_length {α : Type} (xs : List α) {a b : Int} (h0 : 0 ≤ a) (hab : a ≤ b)
    (hb : b ≤ (xs.length : Int)) : ((pySlice xs a b).length : Int) = b - a := by
  unfold pySlice
  rw [pyIndex_eq_toNat _ (le_trans h0 hab) hb, pyIndex_eq_toNat _ h0 (le_trans hab hb)]
  have hble : b.toNat ≤ xs.length := Int.toNat_le.mpr hb
  simp only [List.length_drop, List.length_take, min_eq_left hble]
  omega

lemma pySlice_get? {α : Type} (xs : List α) {a b : Int} (h0 : 0 ≤ a) (hab : a ≤ b)
    (hb : b ≤ (xs.length : Int)) (k : Nat) :
    (pySlice xs a b).get? k =
      if (k : Int) < b - a then xs.get? (a.toNat + k) else none := by
  by_cases hk : (k : Int) < b - a
  · rw [if_pos hk]
    unfold pySlice
    rw [pyIndex_eq_toNat _ (le_trans h0 hab) hb, pyIndex_eq_toNat _ h0 (le_trans hab hb)]
    rw [List.get?_drop]
    rw [List.get?_take (by omega)]
  · rw [if_neg hk]
    rw [List.get?_eq_none]
    have := pySlice_length xs h0 hab hb
    omega

lemma pySlice_eq_nil {α : Type} (xs : List α) {a b : Int} (hb0 : 0 ≤ b) (hba : b ≤ a) :
    pySlice xs a b = [] := by
  apply List.eq_nil_of_length_eq_zero
  unfold pySlice pyIndex
  rw [if_neg (not_lt.mpr hb0), if_neg (not_lt.mpr (le_trans hb0 hba))]
  have : b.toNat ≤ a.toNat := Int.toNat_le_toNat hba
  simp only [List.length_drop, List.length_take]
  omega

/-! ## Claim C2: coordinate containment (counterexample) -/

/-- Claim C2, counterexample.  In simple mode with keep-delimiters false,
the merged window (A,B,Y,Z) completes on the contiguous segment list
[A,B,Y,Z]; the element before the delimiter gets the span
(0, A.start - 1) = (0, -1) and the trailing remainder gets
(Z.stop + 1, 7) = (8, 7), so an emitted element violates
0 <= start_coord <= end_coord <= len - 1. -/
theorem claim_C2_counterexample :
    ((simple_split [["A", "B"], ["Y", "Z"]] false exRead8 exC2segs).map
        fun out => out.1.map fun r => (r.start_coord, r.end_coord)) =
      some [((0 : Int), (-1 : Int)), (8, 7)] ∧
    ¬ (0 ≤ (0 : Int) ∧ (0 : Int) ≤ (-1 : Int) ∧ (-1 : Int) ≤ 8 - 1) := by decide

/-! ## Claim C5: one element per completed template (counterexample) -/

def exC5segs : List SegmentInfo := [⟨"L1", 0, 1⟩]

/-- Claim C5, counterexample.  With the one-label template [L1] and
keep-delimiters false the template completes (one completed template),
but writing its element indexes seg_list[1] of the single captured
segment: the uncaught IndexError aborts the write loop, no element is
written for the completed template and no count is returned. -/
theorem claim_C5_counterexample :
    ((boundedScan [["L1"]] exC5segs).map fun st => st.found) = [true] ∧
    bounded_split [["L1"]] false exRead8 exC5segs = none := by decide

/-! ## Claim C8: completed matcher state is frozen -/

lemma boundedStep_frozen (t : List String) (st : BoundedState) (seg : SegmentInfo)
    (h : st.found = true) : boundedStep t st seg = st := by
  simp [boundedStep, h]

lemma simpleStep_frozen (w : List String) (st : SimpleState) (seg : SegmentInfo)
    (h : w.length ≤ st.dmi) : simpleStep w st seg = st := by
  simp [simpleStep, List.getElem?_eq_none h]

/-- Claim C8: a completed element template of the bounded mode (found
flag set) and a completed delimiter window of the simple mode (match
counter at the window length, where the source catches the IndexError
and ignores it) are never reset or modified by any later segments: the
whole recorded state survives the rest of the scan unchanged. -/
theorem claim_C8 :
    (∀ (t : List String) (st : BoundedState) (laterSegs : List SegmentInfo),
      st.found = true → laterSegs.foldl (boundedStep t) st = st) ∧
    (∀ (w : List String) (st : SimpleState) (laterSegs : List SegmentInfo),
      w.length ≤ st.dmi → laterSegs.foldl (simpleStep w) st = st) := by
  constructor
  · intro t st segs h
    induction segs with
    | nil => rfl
    | cons c cs ih => rw [List.foldl_cons, boundedStep_frozen t st c h]; exact ih
  · intro w st segs h
    induction segs with
    | nil => rfl
    | cons c cs ih => rw [List.foldl_cons, simpleStep_frozen w st c h]; exact ih

/-- Claim C8, witness at concrete completed states and a later
mismatching segment. -/
theorem claim_C8_witness :
    (BoundedState.mk 2 [⟨"L1", 0, 1⟩, ⟨"L2", 2, 3⟩] true 4).found = true ∧
    [(⟨"Q", 5, 6⟩ : SegmentInfo)].foldl (boundedStep ["L1", "L2"])
        (BoundedState.mk 2 [⟨"L1", 0, 1⟩, ⟨"L2", 2, 3⟩] true 4) =
      BoundedState.mk 2 [⟨"L1", 0, 1⟩, ⟨"L2", 2, 3⟩] true 4 ∧
    (["A", "B"] : List String).length ≤
      (SimpleState.mk 2 (some ⟨"A", 0, 1⟩) (some (⟨"A", 0, 1⟩, ⟨"B", 2, 3⟩))).dmi ∧
    [(⟨"Q", 5, 6⟩ : SegmentInfo)].foldl (simpleStep ["A", "B"])
        (SimpleState.mk 2 (some ⟨"A", 0, 1⟩) (some (⟨"A", 0, 1⟩, ⟨"B", 2, 3⟩))) =
      SimpleState.mk 2 (some ⟨"A", 0, 1⟩) (some (⟨"A", 0, 1⟩, ⟨"B", 2, 3⟩)) :=
  ⟨rfl, claim_C8.1 _ _ _ rfl, by decide, claim_C8.2 _ _ _ (by decide)⟩

/-! ## Claim C9: the segment decoder -/

/-- Claim C9: the segment decoder returns the read unchanged together
with the ordered segment list parsed from the pipe-separated annotation
tag, and fails (none, the uncaught KeyError) exactly when the tag is
absent. -/
theorem claim_C9 (read : AlignedRead) :
    (∀ v, get_tag read SEGMENTS_TAG = some v →
      get_segments read = some (read, (v.splitOn "|").map SegmentInfo.fromTag)) ∧
    (get_tag read SEGMENTS_TAG = none → get_segments read = none) := by
  constructor
  · intro v hv
    simp [get_segments, hv]
  · intro hv
    simp [get_segments, hv]

def exReadTagged : AlignedRead := ⟨"r", ['G'], [30], [("SG", "P5:0-10|B:11-20")]⟩

def exReadUntagged : AlignedRead := ⟨"r", ['G'], [30], [("RG", "grp1")]⟩

/-- Claim C9, witness: a read carrying the side channel decodes to the
parsed list, a read without it fails. -/
theorem claim_C9_witness :
    get_tag exReadTagged SEGMENTS_TAG = some "P5:0-10|B:11-20" ∧
    get_segments exReadTagged =
      some (exReadTagged, ("P5:0-10|B:11-20".splitOn "|").map SegmentInfo.fromTag) ∧
    get_tag exReadUntagged SEGMENTS_TAG = none ∧
    get_segments exReadUntagged = none :=
  ⟨by decide, (claim_C9 exReadTagged).1 "P5:0-10|B:11-20" (by decide), by decide,
    (claim_C9 exReadUntagged).2 (by decide)⟩

/-! ## Claim C7: the keep-delimiters=false output bug of the bounded mode -/

lemma boundedElement_short (read : AlignedRead) (segs : List SegmentInfo)
    (h : segs.length < 2) : boundedElement false read segs = none := by
  match segs with
  | [] => rfl
  | [s] => rfl
  | s0 :: s1 :: rest => simp at h; omega

lemma boundedWritePhase_none (keep_delimiters : Bool) (read : AlignedRead)
    (states : List BoundedState)
    (h : ∃ st ∈ states, st.found = true ∧
      boundedElement keep_delimiters read st.segs = none) :
    boundedWritePhase keep_delimiters read states = none := by
  induction states with
  | nil => simp at h
  | cons a rest ih =>
    obtain ⟨st, hmem, hf, he⟩ := h
    rcases List.mem_cons.mp hmem with h1 | h1
    · subst h1
      simp only [boundedWritePhase, hf, if_true, he]
    · unfold boundedWritePhase
      have hrest : boundedWritePhase keep_delimiters read rest = none := ih ⟨st, h1, hf, he⟩
      by_cases ha : a.found
      · simp only [ha, if_true]
        cases hel : boundedElement keep_delimiters read a.segs with
        | none => rfl
        | some r => rw [hrest]; rfl
      · simp only [ha, if_false]
        exact hrest

lemma boundedElement_pair (read : AlignedRead) (s0 s1 : SegmentInfo) :
    boundedElement false read [s0, s1] =
      some (write_split_array_element read [s0, s1] s1.start s0.stop s0.start s1.stop
        s1.name s0.name) := rfl

/-- Claim C7: in bounded mode with keep-delimiters false, a template that
completes with fewer than two captured segments makes the output loop
raise an uncaught index error (the whole write phase aborts), and a
template that completes with exactly two captured segments takes its
start coordinate from the later segment and its end coordinate from the
earlier one, so for ordered non-overlapping segments the span is
inverted and the emitted sequence is empty. -/
theorem claim_C7 :
    (∀ (tmpls : List (List String)) (segments : List SegmentInfo) (read : AlignedRead)
        (st : BoundedState), st ∈ boundedScan tmpls segments → st.found = true →
      st.segs.length < 2 → bounded_split tmpls false read segments = none) ∧
    (∀ (read : AlignedRead) (s0 s1 : SegmentInfo), 0 ≤ s0.start → s0.start ≤ s0.stop →
      s0.stop < s1.start →
      ∃ r, boundedElement false read [s0, s1] = some r ∧
        r.start_coord = s1.start ∧ r.end_coord = s0.stop ∧
        r.end_coord < r.start_coord ∧ r.query_sequence = []) := by
  constructor
  · intro tmpls segments read st hmem hf hlen
    have h2 : boundedWritePhase false read (boundedScan tmpls segments) = none :=
      boundedWritePhase_none false read _
        ⟨st, hmem, hf, boundedElement_short read st.segs hlen⟩
    simp [bounded_split, h2]
  · intro read s0 s1 h0 h1 h2
    refine ⟨_, boundedElement_pair read s0 s1, rfl, rfl, h2, ?_⟩
    show pySlice read.query_sequence s1.start (s0.stop + 1) = []
    exact pySlice_eq_nil _ (by omega) (by omega)

/-- Claim C7, witness: the one-label template aborts the write phase, and
a two-segment completion yields the inverted empty element. -/
theorem claim_C7_witness :
    bounded_split [["L1"]] false exRead8 exC5segs = none ∧
    (∃ r, boundedElement false exRead8 [⟨"L1", 0, 1⟩, ⟨"L3", 4, 5⟩] = some r ∧
      r.start_coord = (⟨"L3", 4, 5⟩ : SegmentInfo).start ∧
      r.end_coord = (⟨"L1", 0, 1⟩ : SegmentInfo).stop ∧
      r.end_coord < r.start_coord ∧ r.query_sequence = []) :=
  ⟨claim_C7.1 [["L1"]] exC5segs exRead8 ⟨1, exC5segs, true, 2⟩ (by decide) rfl (by decide),
    claim_C7.2 exRead8 ⟨"L1", 0, 1⟩ ⟨"L3", 4, 5⟩ (by decide) (by decide) (by decide)⟩

/-! ## Claim C4: the array element writer -/

/-- Claim C4: for every call of the array element writer, the single
record written has the name source_name, span, previous delimiter and
delimiter joined in the documented shape; its sequence and base
qualities are the source read sliced over [start_coord, end_coord]
inclusive; all source tags are copied verbatim; the unmapped flag 4 and
the sentinel mapping quality 255 are set; and the recomputed segment
annotation holds exactly the given segments whose start lies within
[seg_start_coord, seg_end_coord]. -/
theorem claim_C4 (read : AlignedRead) (segments : List SegmentInfo)
    (start_coord end_coord seg_start_coord seg_end_coord : Int)
    (delim_name prev_delim_name : String)
    (h0 : 0 ≤ start_coord) (h1 : start_coord ≤ end_coord + 1)
    (h2 : end_coord + 1 ≤ (read.query_sequence.length : Int))
    (h3 : read.query_qualities.length = read.query_sequence.length) :
    (write_split_array_element read segments start_coord end_coord seg_start_coord
        seg_end_coord delim_name prev_delim_name).query_name =
      read.query_name ++ "_" ++ toString start_coord ++ "-" ++ toString end_coord ++ "_" ++
        prev_delim_name ++ "-" ++ delim_name ∧
    (((write_split_array_element read segments start_coord end_coord seg_start_coord
        seg_end_coord delim_name prev_delim_name).query_sequence.length : Int) =
      end_coord + 1 - start_coord ∧
     ∀ k : Nat, (write_split_array_element read segments start_coord end_coord seg_start_coord
        seg_end_coord delim_name prev_delim_name).query_sequence.get? k =
          if (k : Int) < end_coord + 1 - start_coord then
            read.query_sequence.get? (start_coord.toNat + k) else none) ∧
    (((write_split_array_element read segments start_coord end_coord seg_start_coord
        seg_end_coord delim_name prev_delim_name).query_qualities.length : Int) =
      end_coord + 1 - start_coord ∧
     ∀ k : Nat, (write_split_array_element read segments start_coord end_coord seg_start_coord
        seg_end_coord delim_name prev_delim_name).query_qualities.get? k =
          if (k : Int) < end_coord + 1 - start_coord then
            read.query_qualities.get? (start_coord.toNat + k) else none) ∧
    (write_split_array_element read segments start_coord end_coord seg_start_coord
      seg_end_coord delim_name prev_delim_name).tags = read.tags ∧
    (write_split_array_element read segments start_coord end_coord seg_start_coord
      seg_end_coord delim_name prev_delim_name).flag = 4 ∧
    (write_split_array_element read segments start_coord end_coord seg_start_coord
      seg_end_coord delim_name prev_delim_name).mapping_quality = 255 ∧
    (∀ s, s ∈ (write_split_array_element read segments start_coord end_coord seg_start_coord
        seg_end_coord delim_name prev_delim_name).segmentsTag ↔
      s ∈ segments ∧ seg_start_coord ≤ s.start ∧ s.start ≤ seg_end_coord) := by
  have h2q : end_coord + 1 ≤ (read.query_qualities.length : Int) := by rw [h3]; exact h2
  refine ⟨rfl, ⟨pySlice_length _ h0 h1 h2, fun k => pySlice_get? _ h0 h1 h2 k⟩,
    ⟨pySlice_length _ h0 h1 h2q, fun k => pySlice_get? _ h0 h1 h2q k⟩, rfl, rfl, rfl, ?_⟩
  intro s
  show s ∈ segments.filter _ ↔ _
  rw [List.mem_filter]
  simp [and_assoc]

/-- Claim C4, witness at a concrete call. -/
theorem claim_C4_witness :
    (0 ≤ (2 : Int) ∧ (2 : Int) ≤ 5 + 1 ∧ 5 + 1 ≤ (exRead8.query_sequence.length : Int) ∧
      exRead8.query_qualities.length = exRead8.query_sequence.length) ∧
    ((write_split_array_element exRead8 exC2segs 2 5 1 6 "D" "P").query_name =
      exRead8.query_name ++ "_" ++ toString (2 : Int) ++ "-" ++ toString (5 : Int) ++ "_" ++
        "P" ++ "-" ++ "D" ∧
     ((write_split_array_element exRead8 exC2segs 2 5 1 6 "D" "P").query_sequence.length : Int) =
      5 + 1 - 2 ∧
     (∀ s, s ∈ (write_split_array_element exRead8 exC2segs 2 5 1 6 "D" "P").segmentsTag ↔
       s ∈ exC2segs ∧ (1 : Int) ≤ s.start ∧ s.start ≤ 6)) :=
  ⟨⟨by decide, by decide, by decide, by decide⟩,
    (claim_C4 exRead8 exC2segs 2 5 1 6 "D" "P" (by decide) (by decide) (by decide)
        (by decide)).1,
    ((claim_C4 exRead8 exC2segs 2 5 1 6 "D" "P" (by decide) (by decide) (by decide)
        (by decide)).2.1).1,
    fun s => ((claim_C4 exRead8 exC2segs 2 5 1 6 "D" "P" (by decide) (by decide) (by decide)
        (by decide)).2.2.2.2.2.2) s⟩

/-! ## Structure of the simple splitting output (claim C6) -/

lemma zipWith_map_self {α β γ : Type} (f : α → β → γ) (g : α → β) (l : List α) :
    List.zipWith f l (l.map g) = l.map fun a => f a (g a) := by
  induction l with
  | nil => rfl
  | cons a t ih => simp [ih]

/-- The interleaved scan loops (outer over segments, inner over the
parallel per-window state lists) compute, for every window, the fold of
its own step function over the segment list: the windows' states evolve
independently. -/
lemma foldl_parallel {α σ τ : Type} (step : τ → σ → α → σ) (ws : List τ) (g : τ → σ)
    (segs : List α) :
    segs.foldl (fun sts seg => List.zipWith (fun w st => step w st seg) ws sts) (ws.map g)
      = ws.map fun w => segs.foldl (step w) (g w) := by
  induction segs generalizing g with
  | nil => rfl
  | cons c cs ih =>
    rw [List.foldl_cons, zipWith_map_self, ih (fun w => step w (g w) c)]
    rfl

lemma simpleScan_eq_map (ws : List (List String)) (segs : List SegmentInfo) :
    simpleScan ws segs = ws.map fun w => segs.foldl (simpleStep w) simpleInit :=
  foldl_parallel (fun w st seg => simpleStep w st seg) ws (fun _ => simpleInit) segs

lemma boundedScan_eq_map (ts : List (List String)) (segs : List SegmentInfo) :
    boundedScan ts segs = ts.map fun t => segs.foldl (boundedStep t) boundedInit :=
  foldl_parallel (fun t st seg => boundedStep t st seg) ts (fun _ => boundedInit) segs

lemma zip_self_map {α β : Type} (l : List α) (f : α → β) :
    l.zip (l.map f) = l.map fun a => (a, f a) := by
  induction l with
  | nil => rfl
  | cons a t ih => simp [ih]

lemma length_filterMap_eq_countP {α β : Type} (g : α → Option β) (l : List α) :
    (l.filterMap g).length = l.countP fun a => (g a).isSome := by
  induction l with
  | nil => rfl
  | cons a t ih => cases h : g a <;> simp [List.filterMap_cons, h, List.countP_cons, ih]

lemma sortedBoundaries_length (delims : List (List String)) (segments : List SegmentInfo) :
    (sortedBoundaries delims segments).length =
      delims.countP fun w => (segments.foldl (simpleStep w) simpleInit).endTuple.isSome := by
  unfold sortedBoundaries
  rw [(List.perm_insertionSort boundaryLE _).length_eq]
  rw [simpleScan_eq_map, zip_self_map, List.filterMap_map, length_filterMap_eq_countP]
  apply List.countP_congr
  intro w _
  simp [Function.comp]

lemma simple_split_eq (tmpl : List (List String)) (keep_delimiters : Bool)
    (read : AlignedRead) (segments : List SegmentInfo) (delims : List (List String))
    (h : buildDelimiters tmpl = some delims) :
    simple_split tmpl keep_delimiters read segments =
      some (simpleEmit keep_delimiters read segments 0 "START" (sortedBoundaries delims segments),
        (sortedBoundaries delims segments).length) := by
  unfold simple_split
  rw [h]
  rfl

lemma simpleEmit_length (keep_delimiters : Bool) (read : AlignedRead)
    (segments : List SegmentInfo) (bs : List Boundary) :
    ∀ (cur : Int) (prev : String),
      (simpleEmit keep_delimiters read segments cur prev bs).length = bs.length + 1 := by
  induction bs with
  | nil => intro cur prev; rfl
  | cons b t ih => intro cur prev; simp only [simpleEmit, List.length_cons, ih]

/-- The start coordinate of the final emitted element of the simple mode:
the initial base index when no boundary was found, otherwise derived from
the last sorted boundary as the source's cur_read_base_index update. -/
def lastStartAux (keep_delimiters : Bool) (cur : Int) (bs : List Boundary) : Int :=
  match bs.getLast? with
  | none => cur
  | some b => if keep_delimiters then b.endTuple.1.start else b.endTuple.2.stop + 1

lemma lastStartAux_cons (keep_delimiters : Bool) (cur : Int) (b : Boundary)
    (t : List Boundary) :
    lastStartAux keep_delimiters
        (if keep_delimiters then b.endTuple.1.start else b.endTuple.2.stop + 1) t =
      lastStartAux keep_delimiters cur (b :: t) := by
  cases t with
  | nil => rfl
  | cons c t2 =>
    simp only [lastStartAux, List.getLast?_cons_cons]
    cases h2 : (c :: t2).getLast? with
    | none =>
      have hs := List.getLast?_isSome (l := c :: t2)
      rw [h2] at hs
      simp at hs
    | some x => rfl

lemma simpleEmit_last_coords (keep_delimiters : Bool) (read : AlignedRead)
    (segments : List SegmentInfo) (bs : List Boundary) :
    ∀ (cur : Int) (prev : String),
      ((simpleEmit keep_delimiters read segments cur prev bs).getLast?).map
          (fun r => (r.start_coord, r.end_coord)) =
        some (lastStartAux keep_delimiters cur bs, (read.query_sequence.length : Int) - 1) := by
  induction bs with
  | nil => intro cur prev; rfl
  | cons b t ih =>
    intro cur prev
    show ((_ :: simpleEmit keep_delimiters read segments _ _ t).getLast?).map _ = _
    cases hE : simpleEmit keep_delimiters read segments
        (if keep_delimiters then b.endTuple.1.start else b.endTuple.2.stop + 1)
        (String.intercalate "/" b.window) t with
    | nil =>
      have := simpleEmit_length keep_delimiters read segments t
        (if keep_delimiters then b.endTuple.1.start else b.endTuple.2.stop + 1)
        (String.intercalate "/" b.window)
      rw [hE] at this
      simp at this
    | cons z zs =>
      rw [List.getLast?_cons_cons, ← hE, ih, lastStartAux_cons keep_delimiters cur]

/-- Claim C6: in simple mode the returned value is the number of
completed boundary pairs (windows whose scan recorded an end tuple), the
number of written records is that count plus one, and the final written
record spans from the last boundary (or the read start when no boundary
was found) to the read's last base, index len - 1. -/
theorem claim_C6 (tmpl : List (List String)) (keep_delimiters : Bool) (read : AlignedRead)
    (segments : List SegmentInfo) (delims : List (List String))
    (h : buildDelimiters tmpl = some delims) :
    ∃ recs n, simple_split tmpl keep_delimiters read segments = some (recs, n) ∧
      n = delims.countP (fun w => (segments.foldl (simpleStep w) simpleInit).endTuple.isSome) ∧
      recs.length = n + 1 ∧
      (recs.getLast?).map (fun r => (r.start_coord, r.end_coord)) =
        some (lastStartAux keep_delimiters 0 (sortedBoundaries delims segments),
          (read.query_sequence.length : Int) - 1) := by
  refine ⟨_, _, simple_split_eq tmpl keep_delimiters read segments delims h, ?_, ?_, ?_⟩
  · exact sortedBoundaries_length delims segments
  · exact simpleEmit_length keep_delimiters read segments _ 0 "START"
  · exact simpleEmit_last_coords keep_delimiters read segments _ 0 "START"

/-- Claim C6, witness at the concrete C2 fixture. -/
theorem claim_C6_witness :
    buildDelimiters [["A", "B"], ["Y", "Z"]] = some [["A", "B", "Y", "Z"]] ∧
    (∃ recs n,
      simple_split [["A", "B"], ["Y", "Z"]] false exRead8 exC2segs = some (recs, n) ∧
      n = [["A", "B", "Y", "Z"]].countP
        (fun w => (exC2segs.foldl (simpleStep w) simpleInit).endTuple.isSome) ∧
      recs.length = n + 1 ∧
      (recs.getLast?).map (fun r => (r.start_coord, r.end_coord)) =
        some (lastStartAux false 0 (sortedBoundaries [["A", "B", "Y", "Z"]] exC2segs),
          (exRead8.query_sequence.length : Int) - 1)) :=
  ⟨by decide, claim_C6 [["A", "B"], ["Y", "Z"]] false exRead8 exC2segs
    [["A", "B", "Y", "Z"]] (by decide)⟩

/-! ## The write phase of the bounded mode (claim C5) -/

lemma peekAhead_bounds (t : List String) (dmi : Nat) (name : String) (j : Nat)
    (h : peekAhead t dmi name = some j) : 1 ≤ j ∧ dmi + j ≤ t.length := by
  unfold peekAhead at h
  cases hf : (List.range' 1 (t.length - dmi - 1)).find? (fun p => t.get? (dmi + p) == some name) with
  | none => rw [hf] at h; simp at h
  | some p =>
    rw [hf] at h
    simp only [Option.map_some', Option.some.injEq] at h
    have hmem := List.mem_of_find?_eq_some hf
    rw [List.mem_range'_1] at hmem
    omega

/-- The core invariant of one template's bounded-region state: the
counter never exceeds the template length, the captured list has at
least one segment once the counter is positive and at least two once the
counter is at least two, and a completed template has its counter at the
template length. -/
def BCore (t : List String) (st : BoundedState) : Prop :=
  st.dmi ≤ t.length ∧ (1 ≤ st.dmi → 1 ≤ st.segs.length) ∧
    (2 ≤ st.dmi → 2 ≤ st.segs.length) ∧ (st.found = true → st.dmi = t.length)

lemma BCore_init (t : List String) : BCore t boundedInit := by
  refine ⟨Nat.zero_le _, ?_, ?_, ?_⟩ <;> intro h <;> simp [boundedInit] at h ⊢

lemma BCore_step (t : List String) (st : BoundedState) (seg : SegmentInfo)
    (h : BCore t st) : BCore t (boundedStep t st seg) := by
  obtain ⟨h1, h2, h3, h4⟩ := h
  unfold boundedStep
  by_cases hf : st.found = true
  · rw [if_pos hf]; exact ⟨h1, h2, h3, h4⟩
  · rw [if_neg hf]
    have hff : st.found = false := Bool.eq_false_iff.mpr hf
    cases hg : t.get? st.dmi with
    | none =>
      have hge : t.length ≤ st.dmi := List.get?_eq_none.mp hg
      exact ⟨h1, h2, h3, fun _ => le_antisymm h1 hge⟩
    | some expected =>
      have hlt : st.dmi < t.length := by
        by_contra hc
        rw [List.get?_eq_none.mpr (le_of_not_lt hc)] at hg
        exact Option.noConfusion hg
      have hpost : ∀ st1 : BoundedState, st1.dmi ≤ t.length →
          (1 ≤ st1.dmi → 1 ≤ st1.segs.length) → (2 ≤ st1.dmi → 2 ≤ st1.segs.length) →
          st1.found = false →
          BCore t (if st1.dmi = t.length then { st1 with found := true } else st1) := by
        intro st1 k1 k2 k3 k4
        by_cases hd : st1.dmi = t.length
        · rw [if_pos hd]; exact ⟨k1, k2, k3, fun _ => hd⟩
        · rw [if_neg hd]
          exact ⟨k1, k2, k3, fun hfo => absurd (k4 ▸ hfo) (by simp)⟩
      dsimp only
      by_cases hn : seg.name = expected
      · rw [if_pos hn]
        exact hpost ⟨st.dmi + 1, st.segs ++ [seg], st.found, st.score + match_val⟩
          (by dsimp only; omega) (by simp) (by simp; omega) hff
      · rw [if_neg hn]
        cases hpk : (if st.dmi ≠ 0 then peekAhead t st.dmi seg.name else none) with
        | none =>
          exact hpost ⟨0, [], false, 0⟩ (Nat.zero_le _) (by dsimp only; omega)
            (by dsimp only; omega) rfl
        | some jump =>
          have hj : 1 ≤ jump ∧ st.dmi + jump ≤ t.length := by
            by_cases hz : st.dmi ≠ 0
            · rw [if_pos hz] at hpk; exact peekAhead_bounds t st.dmi seg.name jump hpk
            · rw [if_neg hz] at hpk; exact Option.noConfusion hpk
          have hz : st.dmi ≠ 0 := by
            intro hz0
            rw [if_neg (by simp [hz0])] at hpk
            exact Option.noConfusion hpk
          have hseg1 : 1 ≤ st.segs.length := h2 (by omega)
          exact hpost ⟨st.dmi + jump, st.segs ++ [seg], st.found, st.score + indel_val⟩
            (by dsimp only; omega) (by simp) (by simp; omega) hff

lemma BCore_foldl (t : List String) (segs : List SegmentInfo) :
    ∀ st, BCore t st → BCore t (segs.foldl (boundedStep t) st) := by
  induction segs with
  | nil => intro st h; exact h
  | cons c cs ih =>
    intro st h
    rw [List.foldl_cons]
    exact ih _ (BCore_step t st c h)

lemma get?_isSome_of_lt {α : Type} (xs : List α) (n : Nat) (h : n < xs.length) :
    (xs.get? n).isSome := by
  rw [Option.isSome_iff_ne_none]
  intro hn
  rw [List.get?_eq_none] at hn
  omega

lemma pyGet_neg_one {α : Type} (xs : List α) (h : 1 ≤ xs.length) :
    pyGet xs (-1) = xs.get? (xs.length - 1) := by
  unfold pyGet
  rw [if_pos (by norm_num : (-1 : Int) < 0), if_neg (by push_cast; omega)]
  congr 1
  omega

lemma pyGet_neg_two {α : Type} (xs : List α) (h : 2 ≤ xs.length) :
    pyGet xs (-2) = xs.get? (xs.length - 2) := by
  unfold pyGet
  rw [if_pos (by norm_num : (-2 : Int) < 0), if_neg (by push_cast; omega)]
  congr 1
  omega

lemma pyGet_nonneg {α : Type} (xs : List α) (n : Nat) : pyGet xs (n : Int) = xs.get? n := by
  have h1 : ¬((n : Int) < 0) := by omega
  simp [pyGet, h1]

lemma boundedElement_isSome (keep_delimiters : Bool) (read : AlignedRead)
    (seg_list : List SegmentInfo) (h : 2 ≤ seg_list.length) :
    (boundedElement keep_delimiters read seg_list).isSome := by
  have g0 : pyGet seg_list 0 = seg_list.get? 0 := pyGet_nonneg seg_list 0
  have g1 : pyGet seg_list 1 = seg_list.get? 1 := pyGet_nonneg seg_list 1
  obtain ⟨s0, hs0⟩ := Option.isSome_iff_exists.mp
    (g0 ▸ get?_isSome_of_lt seg_list 0 (by omega))
  obtain ⟨s1, hs1⟩ := Option.isSome_iff_exists.mp
    (g1 ▸ get?_isSome_of_lt seg_list 1 (by omega))
  obtain ⟨e1, he1⟩ := Option.isSome_iff_exists.mp
    ((pyGet_neg_one seg_list (by omega)) ▸ get?_isSome_of_lt seg_list (seg_list.length - 1)
      (by omega))
  obtain ⟨e2, he2⟩ := Option.isSome_iff_exists.mp
    ((pyGet_neg_two seg_list h) ▸ get?_isSome_of_lt seg_list (seg_list.length - 2) (by omega))
  cases keep_delimiters with
  | true => simp [boundedElement, hs0, he1]
  | false => simp [boundedElement, hs0, he1, hs1, he2]

lemma boundedWritePhase_some (keep_delimiters : Bool) (read : AlignedRead)
    (states : List BoundedState)
    (h : ∀ st ∈ states, st.found = true →
      (boundedElement keep_delimiters read st.segs).isSome) :
    boundedWritePhase keep_delimiters read states =
      some (states.filterMap fun st =>
        if st.found then boundedElement keep_delimiters read st.segs else none) := by
  induction states with
  | nil => rfl
  | cons a rest ih =>
    have hrest := ih fun st hst => h st (List.mem_cons_of_mem a hst)
    by_cases ha : a.found = true
    · obtain ⟨r, hr⟩ := Option.isSome_iff_exists.mp (h a (List.mem_cons_self a rest) ha)
      rw [List.filterMap_cons]
      simp only [ha, if_true, hr]
      simp only [boundedWritePhase, ha, if_true, hr, hrest, Option.map_some']
    · have ha' : a.found = false := Bool.eq_false_iff.mpr ha
      rw [List.filterMap_cons]
      simp only [ha', if_false, Bool.false_eq_true]
      simp only [boundedWritePhase, ha', hrest, Bool.false_eq_true, if_false]

lemma length_two_split {α : Type} (l : List α) (h : 2 ≤ l.length) :
    ∃ (s0 s1 : α) (rest : List α), l = s0 :: s1 :: rest := by
  match l, h with
  | s0 :: s1 :: rest, _ => exact ⟨s0, s1, rest, rfl⟩

/-- Claim C5 (amended): in bounded mode, provided every element template
has at least two labels (so the output loop's seg_list index accesses
cannot fail), the split returns: one output element per template marked
complete, in template order, nothing for non-completed templates, and
the returned value equals the number of completed templates, which
equals the number of written elements. -/
theorem claim_C5_amended (tmpls : List (List String)) (keep_delimiters : Bool)
    (read : AlignedRead) (segments : List SegmentInfo)
    (ht : ∀ t ∈ tmpls, 2 ≤ t.length) :
    bounded_split tmpls keep_delimiters read segments =
      some ((boundedScan tmpls segments).filterMap fun st =>
          if st.found then boundedElement keep_delimiters read st.segs else none,
        (boundedScan tmpls segments).countP fun st => st.found) ∧
    ((boundedScan tmpls segments).filterMap fun st =>
        if st.found then boundedElement keep_delimiters read st.segs else none).length =
      (boundedScan tmpls segments).countP fun st => st.found := by
  have hsome : ∀ st ∈ boundedScan tmpls segments, st.found = true →
      (boundedElement keep_delimiters read st.segs).isSome := by
    intro st hst hfd
    rw [boundedScan_eq_map] at hst
    obtain ⟨t, htm, hrw⟩ := List.mem_map.mp hst
    have hcore : BCore t st := hrw ▸ BCore_foldl t segments boundedInit (BCore_init t)
    have hsegs : 2 ≤ st.segs.length := by
      obtain ⟨k1, k2, k3, k4⟩ := hcore
      exact k3 (by have := k4 hfd; have := ht t htm; omega)
    exact boundedElement_isSome keep_delimiters read st.segs hsegs
  constructor
  · have h2 := boundedWritePhase_some keep_delimiters read (boundedScan tmpls segments) hsome
    simp [bounded_split, h2]
  · rw [length_filterMap_eq_countP]
    apply List.countP_congr
    intro st hst
    by_cases hfd : st.found = true
    · simp only [hfd, if_true]
      simp [hsome st hst hfd]
    · have : st.found = false := Bool.eq_false_iff.mpr hfd
      simp [this]

/-- Claim C5 (amended), witness at the concrete three-label template. -/
theorem claim_C5_witness :
    (∀ t ∈ [["L1", "L2", "L3"]], 2 ≤ t.length) ∧
    (bounded_split [["L1", "L2", "L3"]] false exRead8 exC3miss =
      some ((boundedScan [["L1", "L2", "L3"]] exC3miss).filterMap fun st =>
          if st.found then boundedElement false exRead8 st.segs else none,
        (boundedScan [["L1", "L2", "L3"]] exC3miss).countP fun st => st.found) ∧
     ((boundedScan [["L1", "L2", "L3"]] exC3miss).filterMap fun st =>
         if st.found then boundedElement false exRead8 st.segs else none).length =
       (boundedScan [["L1", "L2", "L3"]] exC3miss).countP fun st => st.found) :=
  ⟨by decide, claim_C5_amended [["L1", "L2", "L3"]] false exRead8 exC3miss (by decide)⟩

/-! ## Geometry of emitted spans (claim C2) -/

/-- A segment that lies inside a read of the given length with sane
inclusive coordinates (the spec's data model invariant for segments,
an assumed precondition of the source). -/
def SegOK (L : Nat) (s : SegmentInfo) : Prop :=
  0 ≤ s.start ∧ s.start ≤ s.stop ∧ s.stop < (L : Int)

instance (L : Nat) (s : SegmentInfo) : Decidable (SegOK L s) := by
  unfold SegOK; infer_instance

/-- Strict order of two segments: the first ends before the second
starts (the spec's monotone non-overlapping list invariant). -/
def segLT (a b : SegmentInfo) : Prop := a.stop < b.start

instance : DecidableRel segLT := fun a b => Int.decLt a.stop b.start

/-- The coordinate containment property of one emitted record, for a
source read of the given length. -/
def GoodRec (L : Nat) (r : SplitRecord) : Prop :=
  0 ≤ r.start_coord ∧ r.start_coord ≤ r.end_coord ∧ r.end_coord < (L : Int) ∧
    (r.query_sequence.length : Int) = r.end_coord - r.start_coord + 1

/-- Invariant of one window's simple-mode state while the suffix rest of
the segment list is still unprocessed: a captured start segment is a
sane segment ending before every unprocessed segment; a positive counter
has a captured start segment; a recorded boundary pair is ordered, sane,
carries the captured start segment as its first component and freezes
the counter at the window length. -/
def SInv (L : Nat) (w : List String) (rest : List SegmentInfo) (st : SimpleState) : Prop :=
  (∀ s, st.startSeg = some s → SegOK L s ∧ ∀ c ∈ rest, s.stop < c.start) ∧
  (st.dmi ≠ 0 → st.startSeg.isSome) ∧
  (∀ p : SegmentInfo × SegmentInfo, st.endTuple = some p →
    st.startSeg = some p.1 ∧ SegOK L p.2 ∧ p.1.start ≤ p.2.start ∧ p.1.stop ≤ p.2.stop ∧
      w.length ≤ st.dmi)

lemma SInv_init (L : Nat) (w : List String) (rest : List SegmentInfo) :
    SInv L w rest simpleInit := by
  refine ⟨?_, ?_, ?_⟩
  · intro s hs; exact Option.noConfusion hs
  · intro h; exact absurd rfl h
  · intro p hp; exact Option.noConfusion hp

lemma SInv_step (L : Nat) (w : List String) (st : SimpleState) (c : SegmentInfo)
    (rest : List SegmentInfo) (hok : SegOK L c) (hlt : ∀ r ∈ rest, c.stop < r.start)
    (h : SInv L w (c :: rest) st) : SInv L w rest (simpleStep w st c) := by
  obtain ⟨hA, hD, hB⟩ := h
  unfold simpleStep
  cases hg : w.get? st.dmi with
  | none =>
    refine ⟨fun s hs => ⟨(hA s hs).1, fun r hr => (hA s hs).2 r (List.mem_cons_of_mem c hr)⟩,
      hD, hB⟩
  | some expected =>
    have hlt2 : st.dmi < w.length := by
      by_contra hc
      rw [List.get?_eq_none.mpr (le_of_not_lt hc)] at hg
      exact Option.noConfusion hg
    dsimp only
    by_cases hn : c.name = expected
    · rw [if_pos hn]
      refine ⟨?_, ?_, ?_⟩
      · intro s hs
        by_cases h0 : st.dmi = 0
        · rw [if_pos h0] at hs
          cases hs
          exact ⟨hok, hlt⟩
        · rw [if_neg h0] at hs
          exact ⟨(hA s hs).1, fun r hr => (hA s hs).2 r (List.mem_cons_of_mem c hr)⟩
      · intro _
        by_cases h0 : st.dmi = 0
        · rw [if_pos h0]; rfl
        · rw [if_neg h0]; exact hD h0
      · intro p hp
        by_cases hdone : st.dmi + 1 = w.length
        · rw [if_pos hdone] at hp
          by_cases h0 : st.dmi = 0
          · rw [if_pos h0] at hp ⊢
            cases hp
            exact ⟨rfl, hok, le_refl _, le_refl _, le_of_eq hdone.symm⟩
          · rw [if_neg h0] at hp ⊢
            obtain ⟨s, hsome⟩ := Option.isSome_iff_exists.mp (hD h0)
            rw [hsome] at hp
            simp only [Option.getD_some, Option.some.injEq] at hp
            obtain ⟨hsok, hsrel⟩ := hA s hsome
            have hsc : s.stop < c.start := hsrel c (List.mem_cons_self c rest)
            rw [← hp]
            refine ⟨hsome, hok, ?_, ?_, le_of_eq hdone.symm⟩
            · exact le_trans hsok.2.1 (le_of_lt hsc)
            · exact le_trans (le_of_lt hsc) hok.2.1
        · rw [if_neg hdone] at hp
          have := (hB p hp).2.2.2.2
          omega
    · rw [if_neg hn]
      refine ⟨?_, ?_, ?_⟩
      · intro s hs; exact Option.noConfusion hs
      · intro hx; exact absurd rfl hx
      · intro p hp; exact Option.noConfusion hp

lemma SInv_foldl (L : Nat) (w : List String) :
    ∀ (l : List SegmentInfo) (st : SimpleState), (∀ s ∈ l, SegOK L s) →
      l.Pairwise segLT → SInv L w l st → SInv L w [] (l.foldl (simpleStep w) st) := by
  intro l
  induction l with
  | nil => intro st _ _ h; exact h
  | cons c cs ih =>
    intro st hok hp h
    rw [List.foldl_cons]
    refine ih _ (fun s hs => hok s (List.mem_cons_of_mem c hs))
      (List.pairwise_cons.mp hp).2 ?_
    exact SInv_step L w st c cs (hok c (List.mem_cons_self c cs))
      (List.pairwise_cons.mp hp).1 h

/-- Facts about one recorded boundary of the simple mode, for a read of
length L: the sort key segment equals the recorded start segment, both
recorded segments are sane, and the pair is ordered. -/
def BndOK (L : Nat) (b : Boundary) : Prop :=
  b.startSeg = b.endTuple.1 ∧ SegOK L b.startSeg ∧ SegOK L b.endTuple.2 ∧
    b.startSeg.start ≤ b.endTuple.2.start ∧ b.startSeg.stop ≤ b.endTuple.2.stop

lemma sortedBoundaries_ok (L : Nat) (delims : List (List String))
    (segments : List SegmentInfo) (hok : ∀ s ∈ segments, SegOK L s)
    (hp : segments.Pairwise segLT) :
    ∀ b ∈ sortedBoundaries delims segments, BndOK L b := by
  intro b hb
  unfold sortedBoundaries at hb
  rw [(List.perm_insertionSort boundaryLE _).mem_iff] at hb
  rw [simpleScan_eq_map, zip_self_map, List.filterMap_map] at hb
  obtain ⟨w, hw, hmap⟩ := List.mem_filterMap.mp hb
  simp only [Function.comp] at hmap
  cases het : (segments.foldl (simpleStep w) simpleInit).endTuple with
  | none => rw [het] at hmap; exact Option.noConfusion hmap
  | some et =>
    rw [het] at hmap
    simp only [Option.map_some', Option.some.injEq] at hmap
    have hinv := SInv_foldl L w segments simpleInit hok hp (SInv_init L w segments)
    obtain ⟨hA, hD, hB⟩ := hinv
    obtain ⟨hstart, hok2, hle1, hle2, hlen⟩ := hB et het
    obtain ⟨hok1, _⟩ := hA et.1 hstart
    have hgetD : (segments.foldl (simpleStep w) simpleInit).startSeg.getD et.1 = et.1 := by
      rw [hstart]; rfl
    rw [← hmap]
    refine ⟨?_, ?_, ?_, ?_, ?_⟩
    · dsimp only; rw [hgetD]
    · dsimp only; rw [hgetD]; exact hok1
    · exact hok2
    · dsimp only; rw [hgetD]; exact hle1
    · dsimp only; rw [hgetD]; exact hle2

lemma GoodRec_write (read : AlignedRead) (segments : List SegmentInfo)
    (sc ec ssc sec : Int) (dn pn : String) (h0 : 0 ≤ sc) (h1 : sc ≤ ec)
    (h2 : ec < (read.query_sequence.length : Int)) :
    GoodRec read.query_sequence.length
      (write_split_array_element read segments sc ec ssc sec dn pn) := by
  refine ⟨h0, h1, h2, ?_⟩
  have hx := pySlice_length read.query_sequence (a := sc) (b := ec + 1) h0 (by omega) (by omega)
  dsimp only [write_split_array_element]
  omega

lemma simpleEmit_true_cons (read : AlignedRead) (segments : List SegmentInfo) (cur : Int)
    (prev : String) (b : Boundary) (bs : List Boundary) :
    simpleEmit true read segments cur prev (b :: bs) =
      write_split_array_element read segments cur b.endTuple.2.stop cur b.endTuple.2.stop
          (String.intercalate "/" b.window) prev ::
        simpleEmit true read segments b.endTuple.1.start (String.intercalate "/" b.window) bs :=
  rfl

lemma simpleEmit_good (read : AlignedRead) (segments : List SegmentInfo)
    (hL : 1 ≤ read.query_sequence.length) (bs : List Boundary) :
    ∀ (cur : Int) (prev : String), 0 ≤ cur →
      cur ≤ (read.query_sequence.length : Int) - 1 →
      (∀ b ∈ bs, BndOK read.query_sequence.length b) →
      (∀ b ∈ bs, cur ≤ b.startSeg.start) →
      bs.Pairwise boundaryLE →
      ∀ r ∈ simpleEmit true read segments cur prev bs,
        GoodRec read.query_sequence.length r := by
  induction bs with
  | nil =>
    intro cur prev h0 h1 _ _ _ r hr
    simp only [simpleEmit, List.mem_singleton] at hr
    subst hr
    exact GoodRec_write read segments _ _ _ _ _ _ h0 h1 (by omega)
  | cons b bs ih =>
    intro cur prev h0 h1 hok hcur hpair r hr
    obtain ⟨hbok, hbs⟩ := List.forall_mem_cons.mp hok
    obtain ⟨hbcur, hbscur⟩ := List.forall_mem_cons.mp hcur
    obtain ⟨hple, hptail⟩ := List.pairwise_cons.mp hpair
    obtain ⟨hb1, hb2, hb3, hb4, hb5⟩ := hbok
    rw [simpleEmit_true_cons] at hr
    rcases List.mem_cons.mp hr with hr | hr
    · subst hr
      have hstop : cur ≤ b.endTuple.2.stop := le_trans hbcur (le_trans hb4 hb3.2.1)
      exact GoodRec_write read segments _ _ _ _ _ _ h0 hstop hb3.2.2
    · refine ih b.endTuple.1.start (String.intercalate "/" b.window) ?_ ?_ hbs ?_ hptail r hr
      · rw [← hb1]; exact hb2.1
      · rw [← hb1]
        have := hb2.2.1
        have := hb2.2.2
        omega
      · intro b' hb'
        rw [← hb1]
        exact hple b' hb'

/-- One bounded-mode step either leaves the captured list unchanged,
appends the processed segment, or clears it (the reset). -/
lemma boundedStep_segs_cases (t : List String) (st : BoundedState) (c : SegmentInfo) :
    (boundedStep t st c).segs = st.segs ∨ (boundedStep t st c).segs = st.segs ++ [c] ∨
      (boundedStep t st c).segs = [] := by
  unfold boundedStep
  by_cases hf : st.found = true
  · rw [if_pos hf]; left; rfl
  · rw [if_neg hf]
    cases hg : t.get? st.dmi with
    | none => left; rfl
    | some expected =>
      dsimp only
      by_cases hn : c.name = expected
      · rw [if_pos hn]
        by_cases hd : st.dmi + 1 = t.length
        · rw [if_pos hd]; right; left; rfl
        · rw [if_neg hd]; right; left; rfl
      · rw [if_neg hn]
        cases hpk : (if st.dmi ≠ 0 then peekAhead t st.dmi c.name else none) with
        | none =>
          right; right
          dsimp only
          split <;> rfl
        | some jump =>
          by_cases hd : st.dmi + jump = t.length
          · rw [if_pos hd]; right; left; rfl
          · rw [if_neg hd]; right; left; rfl

/-- Geometric invariant of one template's bounded-mode state: every
captured segment is sane, captured segments are ordered and
non-overlapping in capture order, and all of them end before every
unprocessed segment. -/
def BGeo (L : Nat) (rest : List SegmentInfo) (st : BoundedState) : Prop :=
  (∀ s ∈ st.segs, SegOK L s) ∧ st.segs.Chain' segLT ∧
    (∀ s ∈ st.segs, ∀ r ∈ rest, s.stop < r.start)

lemma BGeo_init (L : Nat) (rest : List SegmentInfo) : BGeo L rest boundedInit := by
  refine ⟨?_, ?_, ?_⟩ <;> simp [boundedInit]

lemma BGeo_step (L : Nat) (t : List String) (st : BoundedState) (c : SegmentInfo)
    (rest : List SegmentInfo) (hok : SegOK L c) (hlt : ∀ r ∈ rest, c.stop < r.start)
    (h : BGeo L (c :: rest) st) : BGeo L rest (boundedStep t st c) := by
  obtain ⟨h1, h2, h3⟩ := h
  rcases boundedStep_segs_cases t st c with hs | hs | hs <;> rw [BGeo, hs]
  · exact ⟨h1, h2, fun s hsm r hr => h3 s hsm r (List.mem_cons_of_mem c hr)⟩
  · refine ⟨?_, ?_, ?_⟩
    · intro s hsm
      rcases List.mem_append.mp hsm with hsm | hsm
      · exact h1 s hsm
      · rw [List.mem_singleton.mp hsm]; exact hok
    · rw [List.chain'_append]
      refine ⟨h2, List.chain'_singleton c, ?_⟩
      intro x hx y hy
      rw [List.head?_cons, Option.mem_def, Option.some.injEq] at hy
      subst hy
      obtain ⟨hne, hxl⟩ := List.mem_getLast?_eq_getLast hx
      exact h3 x (hxl ▸ List.getLast_mem hne) c (List.mem_cons_self c rest)
    · intro s hsm r hr
      rcases List.mem_append.mp hsm with hsm | hsm
      · exact h3 s hsm r (List.mem_cons_of_mem c hr)
      · rw [List.mem_singleton.mp hsm]; exact hlt r hr
  · exact ⟨by simp, by simp, by simp⟩

lemma BGeo_foldl (L : Nat) (t : List String) :
    ∀ (l : List SegmentInfo) (st : BoundedState), (∀ s ∈ l, SegOK L s) →
      l.Pairwise segLT → BGeo L l st → BGeo L [] (l.foldl (boundedStep t) st) := by
  intro l
  induction l with
  | nil => intro st _ _ h; exact h
  | cons c cs ih =>
    intro st hok hp h
    rw [List.foldl_cons]
    refine ih _ (fun s hs => hok s (List.mem_cons_of_mem c hs))
      (List.pairwise_cons.mp hp).2 ?_
    exact BGeo_step L t st c cs (hok c (List.mem_cons_self c cs))
      (List.pairwise_cons.mp hp).1 h

lemma head_start_le_getLast_stop (L : Nat) :
    ∀ (l : List SegmentInfo) (hne : l ≠ []), (∀ s ∈ l, SegOK L s) → l.Chain' segLT →
      (l.head hne).start ≤ (l.getLast hne).stop := by
  intro l
  induction l with
  | nil => intro hne; exact absurd rfl hne
  | cons a l2 ih =>
    intro hne hok hch
    cases l2 with
    | nil =>
      simp only [List.head_cons, List.getLast_singleton]
      exact (hok a (List.mem_cons_self a [])).2.1
    | cons b l3 =>
      have h1 : segLT a b := (List.chain'_cons.mp hch).1
      have h2 := ih (by simp) (fun s hs => hok s (List.mem_cons_of_mem a hs))
        (List.chain'_cons.mp hch).2
      rw [List.head_cons, List.getLast_cons (by simp : (b :: l3) ≠ [])]
      rw [List.head_cons] at h2
      have ha := (hok a (List.mem_cons_self a (b :: l3))).2.1
      have : a.stop < b.start := h1
      omega

lemma pyGet_zero {α : Type} (xs : List α) : pyGet xs 0 = xs.get? 0 := by
  unfold pyGet
  norm_num

lemma boundedElement_true_eq (read : AlignedRead) (segs : List SegmentInfo)
    (hne : segs ≠ []) :
    boundedElement true read segs =
      some (write_split_array_element read segs (segs.head hne).start
        (segs.getLast hne).stop (segs.head hne).start (segs.getLast hne).stop
        (segs.getLast hne).name (segs.head hne).name) := by
  have h0 : pyGet segs 0 = some (segs.head hne) := by
    rw [pyGet_zero, List.get?_zero, List.head?_eq_head hne]
  have hm1 : pyGet segs (-1) = some (segs.getLast hne) := by
    rw [pyGet_neg_one segs (by cases segs with | nil => exact absurd rfl hne | cons a t => simp)]
    rw [List.get?_eq_getElem?, ← List.getLast?_eq_getElem?]
    exact List.getLast?_eq_getLast segs hne
  simp [boundedElement, h0, hm1]

/-- Claim C2 (amended): for a nonempty read whose segments are sane
(inside the read, start at most stop) and listed in strictly increasing
non-overlapping order, with keep-delimiters true, every emitted element
of the simple mode and of the bounded mode (the latter for element
templates that are all nonempty, so that the output loop cannot fail)
satisfies 0 <= start_coord <= end_coord <= len - 1 and its emitted
sequence length is end_coord - start_coord + 1. -/
theorem claim_C2_amended (read : AlignedRead) (segments : List SegmentInfo)
    (hL : 1 ≤ read.query_sequence.length)
    (hok : ∀ s ∈ segments, SegOK read.query_sequence.length s)
    (hp : segments.Pairwise segLT) :
    (∀ (tmpl : List (List String)) (out : List SplitRecord × Nat),
      simple_split tmpl true read segments = some out →
      ∀ r ∈ out.1, GoodRec read.query_sequence.length r) ∧
    (∀ tmpls : List (List String), (∀ t ∈ tmpls, t ≠ []) →
      ∃ out : List SplitRecord × Nat, bounded_split tmpls true read segments = some out ∧
        ∀ r ∈ out.1, GoodRec read.query_sequence.length r) := by
  constructor
  · intro tmpl out hout r hr
    cases hbd : buildDelimiters tmpl with
    | none =>
      unfold simple_split at hout
      rw [hbd] at hout
      exact Option.noConfusion hout
    | some delims =>
      rw [simple_split_eq tmpl true read segments delims hbd] at hout
      cases hout
      refine simpleEmit_good read segments hL (sortedBoundaries delims segments) 0 "START"
        (by omega) (by omega) (sortedBoundaries_ok _ delims segments hok hp) ?_ ?_ r hr
      · intro b hb
        exact le_trans (by omega)
          ((sortedBoundaries_ok _ delims segments hok hp b hb).2.1.1)
      · exact List.sorted_insertionSort boundaryLE _
  · intro tmpls hne
    have hGood : ∀ st ∈ boundedScan tmpls segments, st.found = true →
        ∃ rec, boundedElement true read st.segs = some rec ∧
          GoodRec read.query_sequence.length rec := by
      intro st hst hfd
      rw [boundedScan_eq_map] at hst
      obtain ⟨t, htm, hrw⟩ := List.mem_map.mp hst
      have hcore : BCore t st := hrw ▸ BCore_foldl t segments boundedInit (BCore_init t)
      have hgeo : BGeo read.query_sequence.length [] st :=
        hrw ▸ BGeo_foldl read.query_sequence.length t segments boundedInit hok hp
          (BGeo_init read.query_sequence.length segments)
      have hlen1 : 1 ≤ st.segs.length := by
        obtain ⟨k1, k2, k3, k4⟩ := hcore
        have ht1 : 0 < t.length := List.length_pos.mpr (hne t htm)
        exact k2 (by have := k4 hfd; omega)
      have hne' : st.segs ≠ [] := by
        cases hq : st.segs with
        | nil => rw [hq] at hlen1; simp at hlen1
        | cons a l2 => simp
      obtain ⟨hg1, hg2, _⟩ := hgeo
      refine ⟨_, boundedElement_true_eq read st.segs hne', ?_⟩
      refine GoodRec_write read st.segs _ _ _ _ _ _ ?_ ?_ ?_
      · exact (hg1 _ (List.head_mem hne')).1
      · exact head_start_le_getLast_stop read.query_sequence.length st.segs hne' hg1 hg2
      · exact (hg1 _ (List.getLast_mem hne')).2.2
    have hsome : ∀ st ∈ boundedScan tmpls segments, st.found = true →
        (boundedElement true read st.segs).isSome := by
      intro st hst hfd
      obtain ⟨rec, hrec, _⟩ := hGood st hst hfd
      rw [hrec]
      rfl
    have hphase := boundedWritePhase_some true read (boundedScan tmpls segments) hsome
    refine ⟨((boundedScan tmpls segments).filterMap fun st =>
        if st.found then boundedElement true read st.segs else none,
      (boundedScan tmpls segments).countP fun st => st.found), ?_, ?_⟩
    · simp [bounded_split, hphase]
    · intro r hr
      obtain ⟨st, hst, hif⟩ := List.mem_filterMap.mp hr
      by_cases hfd : st.found = true
      · rw [if_pos hfd] at hif
        obtain ⟨rec, hrec, hgood⟩ := hGood st hst hfd
        rw [hrec] at hif
        cases hif
        exact hgood
      · rw [if_neg hfd] at hif
        exact Option.noConfusion hif

/-- Claim C2 (amended), witness at the concrete four-segment read. -/
theorem claim_C2_witness :
    (1 ≤ exRead8.query_sequence.length ∧
      (∀ s ∈ exC2segs, SegOK exRead8.query_sequence.length s) ∧
      exC2segs.Pairwise segLT) ∧
    ((∀ (tmpl : List (List String)) (out : List SplitRecord × Nat),
        simple_split tmpl true exRead8 exC2segs = some out →
        ∀ r ∈ out.1, GoodRec exRead8.query_sequence.length r) ∧
     (∀ tmpls : List (List String), (∀ t ∈ tmpls, t ≠ []) →
        ∃ out : List SplitRecord × Nat, bounded_split tmpls true exRead8 exC2segs = some out ∧
          ∀ r ∈ out.1, GoodRec exRead8.query_sequence.length r)) :=
  ⟨⟨by decide, by decide, by decide⟩,
    claim_C2_amended exRead8 exC2segs (by decide) (by decide) (by decide)⟩

/-! ## The pipeline shutdown protocol (claim C10)

The main command starts a fixed pool of workers that consume a bounded
input queue (capacity = worker count), one writer that consumes an
unbounded results queue, and a producer (the main thread) that feeds the
input queue with the records followed by one sentinel per worker, then
joins the workers, then puts one sentinel on the results queue, then
joins the writer.  The model below is an interleaving semantics of that
protocol: every enabled transition of any process may fire next.
Message payloads are abstracted to item versus sentinel. -/

inductive PMsg where
  | item : PMsg
  | sentinel : PMsg
deriving Repr, DecidableEq

/-- The observable state of one worker or of the writer: whether it is
still running and how many sentinels it has consumed. -/
structure ProcSt where
  running : Bool
  sentsSeen : Nat
deriving Repr, DecidableEq

/-- The control phase of the main thread of the pipeline. -/
inductive PPhase where
  | producing : PPhase
  | joiningWorkers : PPhase
  | putResultSentinel : PPhase
  | joiningWriter : PPhase
  | finished : PPhase
deriving Repr, DecidableEq

structure PConfig where
  prod : List PMsg
  inQ : List PMsg
  resQ : List PMsg
  workers : List ProcSt
  writer : ProcSt
  phase : PPhase
  cap : Nat
deriving Repr, DecidableEq

/-- Transitions of the main thread: feed the bounded input queue
(blocking when it holds cap messages), then switch to joining the
workers once the stream (records plus sentinels) is exhausted, then —
only after every worker has exited — append the single sentinel to the
results queue and join the writer. -/
def producerSteps (c : PConfig) : List PConfig :=
  match c.phase, c.prod with
  | .producing, m :: rest =>
    if c.inQ.length < c.cap then [{ c with prod := rest, inQ := c.inQ ++ [m] }] else []
  | .producing, [] => [{ c with phase := .joiningWorkers }]
  | .joiningWorkers, _ =>
    if c.workers.all (fun w => !w.running) then [{ c with phase := .putResultSentinel }]
    else []
  | .putResultSentinel, _ =>
    [{ c with resQ := c.resQ ++ [PMsg.sentinel], phase := .joiningWriter }]
  | .joiningWriter, _ =>
    if !c.writer.running then [{ c with phase := .finished }] else []
  | .finished, _ => []

/-- Transition of worker i: a running worker dequeues the head of the
input queue; a sentinel makes it exit, an item is processed and its
result appended to the results queue. -/
def workerStepAt (c : PConfig) (i : Nat) : List PConfig :=
  match c.workers[i]?, c.inQ with
  | some w, m :: rest =>
    if w.running then
      match m with
      | .sentinel =>
        [{ c with inQ := rest, workers := c.workers.set i ⟨false, w.sentsSeen + 1⟩ }]
      | .item => [{ c with inQ := rest, resQ := c.resQ ++ [PMsg.item] }]
    else []
  | _, _ => []

/-- Transition of the writer: dequeue the head of the results queue; a
sentinel makes it exit, an item is written out. -/
def writerSteps (c : PConfig) : List PConfig :=
  match c.resQ with
  | m :: rest =>
    if c.writer.running then
      match m with
      | .sentinel => [{ c with resQ := rest, writer := ⟨false, c.writer.sentsSeen + 1⟩ }]
      | .item => [{ c with resQ := rest }]
    else []
  | [] => []

/-- All enabled transitions of a pipeline configuration. -/
def pipelineSteps (c : PConfig) : List PConfig :=
  producerSteps c ++ (List.range c.workers.length).bind (workerStepAt c) ++ writerSteps c

/-- The initial configuration for n workers and m input records: the
stream holds the m records followed by exactly one sentinel per worker,
both queues are empty, everyone is running, and the input queue capacity
is the worker count. -/
def pipelineInit (n m : Nat) : PConfig :=
  ⟨List.replicate m PMsg.item ++ List.replicate n PMsg.sentinel, [], [],
    List.replicate n ⟨true, 0⟩, ⟨true, 0⟩, .producing, n⟩

def phaseWeight : PPhase → Nat
  | .producing => 6
  | .joiningWorkers => 5
  | .putResultSentinel => 4
  | .joiningWriter => 2
  | .finished => 1

/-- Termination measure of the pipeline: every transition strictly
decreases it. -/
def pmeasure (c : PConfig) : Nat :=
  3 * c.prod.length + 2 * c.inQ.length + c.resQ.length + phaseWeight c.phase +
    c.workers.countP (fun w => w.running) + (if c.writer.running then 1 else 0)

lemma countP_set_run {l : List ProcSt} {i : Nat} {w : ProcSt} (h : l[i]? = some w)
    (hw : w.running = true) (k : Nat) :
    (l.set i ⟨false, k⟩).countP (fun x => x.running) + 1 =
      l.countP (fun x => x.running) := by
  induction l generalizing i with
  | nil => simp at h
  | cons a t ih =>
    cases i with
    | zero =>
      rw [List.getElem?_cons_zero, Option.some.injEq] at h
      subst h
      simp [List.countP_cons, hw]
    | succ j =>
      rw [List.getElem?_cons_succ] at h
      simp only [List.set_cons_succ, List.countP_cons]
      have := ih h
      omega

lemma producer_measure (c c' : PConfig) (h : c' ∈ producerSteps c) :
    pmeasure c' < pmeasure c := by
  obtain ⟨prod, inQ, resQ, workers, writer, phase, cap⟩ := c
  cases phase
  case producing =>
    cases prod with
    | nil =>
      simp only [producerSteps, List.mem_singleton] at h
      subst h
      simp [pmeasure, phaseWeight]
    | cons mm rest =>
      simp only [producerSteps] at h
      split at h
      · rw [List.mem_singleton] at h
        subst h
        simp only [pmeasure, phaseWeight, List.length_append, List.length_cons,
          List.length_nil]
        omega
      · simp at h
  case joiningWorkers =>
    simp only [producerSteps] at h
    split at h
    · rw [List.mem_singleton] at h
      subst h
      simp [pmeasure, phaseWeight]
    · simp at h
  case putResultSentinel =>
    simp only [producerSteps, List.mem_singleton] at h
    subst h
    simp only [pmeasure, phaseWeight, List.length_append, List.length_cons, List.length_nil]
    omega
  case joiningWriter =>
    simp only [producerSteps] at h
    split at h
    · rw [List.mem_singleton] at h
      subst h
      simp [pmeasure, phaseWeight]
    · simp at h
  case finished => simp [producerSteps] at h

lemma worker_measure (c c' : PConfig) (i : Nat) (h : c' ∈ workerStepAt c i) :
    pmeasure c' < pmeasure c := by
  cases hg : c.workers[i]? with
  | none =>
    cases hq : c.inQ with
    | nil => simp [workerStepAt, hg, hq] at h
    | cons mm rest => simp [workerStepAt, hg, hq] at h
  | some w =>
    cases hq : c.inQ with
    | nil => simp [workerStepAt, hg, hq] at h
    | cons mm rest =>
      simp only [workerStepAt, hg, hq] at h
      split at h
      next hrun =>
        cases mm with
        | sentinel =>
          rw [List.mem_singleton] at h
          subst h
          have hcnt := countP_set_run hg hrun (w.sentsSeen + 1)
          simp only [pmeasure, hq, List.length_cons]
          omega
        | item =>
          rw [List.mem_singleton] at h
          subst h
          simp only [pmeasure, hq, List.length_append, List.length_cons, List.length_nil]
          omega
      next hrun => simp at h

lemma writer_measure (c c' : PConfig) (h : c' ∈ writerSteps c) :
    pmeasure c' < pmeasure c := by
  cases hq : c.resQ with
  | nil => simp [writerSteps, hq] at h
  | cons mm rest =>
    simp only [writerSteps, hq] at h
    split at h
    next hrun =>
      cases mm with
      | sentinel =>
        rw [List.mem_singleton] at h
        subst h
        have h0 : (if ({ running := false, sentsSeen := c.writer.sentsSeen + 1 } :
            ProcSt).running = true then 1 else 0) = 0 := rfl
        simp only [pmeasure, hq, List.length_cons, h0, if_pos hrun]
        omega
      | item =>
        rw [List.mem_singleton] at h
        subst h
        simp only [pmeasure, hq, List.length_cons]
        omega
    next hrun => simp at h

lemma pipelineSteps_measure (c c' : PConfig) (h : c' ∈ pipelineSteps c) :
    pmeasure c' < pmeasure c := by
  unfold pipelineSteps at h
  rcases List.mem_append.mp h with h1 | h1
  · rcases List.mem_append.mp h1 with h2 | h2
    · exact producer_measure c c' h2
    · obtain ⟨i, _, hw⟩ := List.mem_bind.mp h2
      exact worker_measure c c' i hw
  · exact writer_measure c c' h1

def sentCount (l : List PMsg) : Nat := l.countP fun m => m == PMsg.sentinel

lemma sentCount_append (l1 l2 : List PMsg) :
    sentCount (l1 ++ l2) = sentCount l1 + sentCount l2 :=
  List.countP_append _ _ _

lemma sentCount_cons_item (l : List PMsg) :
    sentCount (PMsg.item :: l) = sentCount l := by
  simp [sentCount, List.countP_cons]

lemma sentCount_cons_sent (l : List PMsg) :
    sentCount (PMsg.sentinel :: l) = sentCount l + 1 := by
  simp [sentCount, List.countP_cons]

lemma sentCount_replicate_item (n : Nat) : sentCount (List.replicate n PMsg.item) = 0 := by
  induction n with
  | zero => rfl
  | succ k ih => rw [List.replicate_succ, sentCount_cons_item, ih]

lemma sentCount_replicate_sent (n : Nat) :
    sentCount (List.replicate n PMsg.sentinel) = n := by
  induction n with
  | zero => rfl
  | succ k ih => rw [List.replicate_succ, sentCount_cons_sent, ih]

/-- The inductive invariant of the pipeline protocol: the queue capacity
is the worker count; the unproduced stream is records followed by
sentinels, with all the sentinels still present while records remain;
the sentinels not yet consumed (in the input queue or unproduced) exactly
match the still-running workers; every worker has consumed one sentinel
exactly when it has exited, and likewise the writer; after the producing
phase the stream is exhausted; from the put-result-sentinel phase on all
workers have exited; the results queue holds the one writer sentinel
exactly from the joining-writer phase until the writer consumes it; and
in the finished phase the writer has exited. -/
structure PInv (c : PConfig) : Prop where
  wlen : c.workers.length = c.cap
  cap1 : 1 ≤ c.cap
  prodForm : ∃ a b, c.prod = List.replicate a PMsg.item ++ List.replicate b PMsg.sentinel ∧
    (0 < a → b = c.cap)
  sentBal : sentCount c.inQ + sentCount c.prod = c.workers.countP (fun w => w.running)
  wcount : ∀ w ∈ c.workers, (w.running = true → w.sentsSeen = 0) ∧
    (w.running = false → w.sentsSeen = 1)
  prodDone : c.phase ≠ PPhase.producing → c.prod = []
  wdead : (c.phase = PPhase.putResultSentinel ∨ c.phase = PPhase.joiningWriter ∨
    c.phase = PPhase.finished) → ∀ w ∈ c.workers, w.running = false
  wrcount : (c.writer.running = true → c.writer.sentsSeen = 0) ∧
    (c.writer.running = false → c.writer.sentsSeen = 1)
  resBal : sentCount c.resQ + (if c.writer.running then 0 else 1) =
    (if c.phase = PPhase.joiningWriter ∨ c.phase = PPhase.finished then 1 else 0)
  wrFin : c.phase = PPhase.finished → c.writer.running = false

lemma countP_running_replicate (n : Nat) :
    (List.replicate n (⟨true, 0⟩ : ProcSt)).countP (fun w => w.running) = n := by
  induction n with
  | zero => rfl
  | succ k ih => rw [List.replicate_succ, List.countP_cons]; simp [ih]

lemma PInv_init (n m : Nat) (hn : 1 ≤ n) : PInv (pipelineInit n m) := by
  refine ⟨?_, ?_, ?_, ?_, ?_, ?_, ?_, ?_, ?_, ?_⟩ <;> dsimp only [pipelineInit]
  · rw [List.length_replicate]
  · exact hn
  · exact ⟨m, n, rfl, fun _ => rfl⟩
  · rw [sentCount_append, sentCount_replicate_item, sentCount_replicate_sent,
      countP_running_replicate]
    simp [sentCount]
  · intro w hw
    rw [List.eq_of_mem_replicate hw]
    exact ⟨fun _ => rfl, fun hfalse => Bool.noConfusion hfalse⟩
  · intro hne
    exact absurd rfl hne
  · intro hor
    rcases hor with hor | hor | hor <;> exact PPhase.noConfusion hor
  · exact ⟨fun _ => rfl, fun hfalse => Bool.noConfusion hfalse⟩
  · simp [sentCount]
  · intro hfin
    exact PPhase.noConfusion hfin

lemma stream_tail {a b : Nat} {mm : PMsg} {rest : List PMsg}
    (h : List.replicate a PMsg.item ++ List.replicate b PMsg.sentinel = mm :: rest) :
    (0 < a ∧ mm = PMsg.item ∧
      rest = List.replicate (a - 1) PMsg.item ++ List.replicate b PMsg.sentinel) ∨
    (a = 0 ∧ 0 < b ∧ mm = PMsg.sentinel ∧ rest = List.replicate (b - 1) PMsg.sentinel) := by
  cases a with
  | zero =>
    right
    rw [List.replicate_zero, List.nil_append] at h
    cases b with
    | zero => exact absurd h (by simp)
    | succ b2 =>
      rw [List.replicate_succ] at h
      injection h with h1 h2
      exact ⟨rfl, by omega, h1.symm, by rw [← h2]; congr 1⟩
  | succ a2 =>
    left
    rw [List.replicate_succ, List.cons_append] at h
    injection h with h1 h2
    exact ⟨by omega, h1.symm, by rw [← h2]; congr 1⟩

lemma PInv_producer (c c' : PConfig) (hinv : PInv c) (h : c' ∈ producerSteps c) :
    PInv c' := by
  obtain ⟨prod, inQ, resQ, workers, writer, phase, cap⟩ := c
  obtain ⟨i1, i2, i3, i4, i5, i6, i7, i8, i9, i10⟩ := hinv
  cases phase
  case producing =>
    cases prod with
    | nil =>
      simp only [producerSteps, List.mem_singleton] at h
      subst h
      refine ⟨i1, i2, ?_, i4, i5, ?_, ?_, i8, ?_, ?_⟩
      · exact ⟨0, 0, rfl, fun h0 => absurd h0 (by omega)⟩
      · intro _; rfl
      · intro hor; rcases hor with hor | hor | hor <;> exact PPhase.noConfusion hor
      · simpa using i9
      · intro hfin; exact PPhase.noConfusion hfin
    | cons mm rest =>
      simp only [producerSteps] at h
      split at h
      next hlt =>
        rw [List.mem_singleton] at h
        subst h
        obtain ⟨a, b, hform, hcond⟩ := i3
        refine ⟨i1, i2, ?_, ?_, i5, ?_, ?_, i8, ?_, ?_⟩
        · rcases stream_tail hform.symm with ⟨ha, hmm, hrest⟩ | ⟨ha, hb, hmm, hrest⟩
          · exact ⟨a - 1, b, hrest, fun _ => hcond ha⟩
          · refine ⟨0, b - 1, by rw [hrest]; simp, fun h0 => absurd h0 (by omega)⟩
        · show sentCount (inQ ++ [mm]) + sentCount rest = workers.countP (fun w => w.running)
          rw [sentCount_append]
          have hdec : sentCount (mm :: rest) = sentCount [mm] + sentCount rest := by
            cases mm
            · rw [sentCount_cons_item]
              simp [sentCount]
            · rw [sentCount_cons_sent]
              simp [sentCount]
              omega
          have h4 : sentCount inQ + sentCount (mm :: rest) =
              workers.countP (fun w => w.running) := i4
          omega
        · intro hne; exact absurd rfl hne
        · intro hor; rcases hor with hor | hor | hor <;> exact PPhase.noConfusion hor
        · simpa using i9
        · intro hfin; exact PPhase.noConfusion hfin
      next => simp at h
  case joiningWorkers =>
    simp only [producerSteps] at h
    split at h
    next hall =>
      rw [List.mem_singleton] at h
      subst h
      have hdead : ∀ w ∈ workers, w.running = false := by
        intro w hw
        have hh := List.all_eq_true.mp hall w hw
        simpa using hh
      refine ⟨i1, i2, i3, i4, i5, ?_, ?_, i8, ?_, ?_⟩
      · intro _
        exact i6 (fun hc => PPhase.noConfusion hc)
      · intro _
        exact hdead
      · simpa using i9
      · intro hfin; exact PPhase.noConfusion hfin
    next => simp at h
  case putResultSentinel =>
    simp only [producerSteps, List.mem_singleton] at h
    subst h
    refine ⟨i1, i2, i3, i4, i5, ?_, ?_, i8, ?_, ?_⟩
    · intro _
      exact i6 (fun hc => PPhase.noConfusion hc)
    · intro _
      exact i7 (Or.inl rfl)
    · show sentCount (resQ ++ [PMsg.sentinel]) + (if writer.running = true then 0 else 1) =
          (if (PPhase.joiningWriter = PPhase.joiningWriter ∨
            PPhase.joiningWriter = PPhase.finished) then 1 else 0)
      rw [sentCount_append, if_pos (Or.inl rfl)]
      have h9 : sentCount resQ + (if writer.running = true then 0 else 1) = 0 := by
        simpa using i9
      have hone : sentCount [PMsg.sentinel] = 1 := rfl
      omega
    · intro hfin; exact PPhase.noConfusion hfin
  case joiningWriter =>
    simp only [producerSteps] at h
    split at h
    next hwr =>
      rw [List.mem_singleton] at h
      subst h
      refine ⟨i1, i2, i3, i4, i5, ?_, ?_, i8, ?_, ?_⟩
      · intro _
        exact i6 (fun hc => PPhase.noConfusion hc)
      · intro _
        exact i7 (Or.inr (Or.inl rfl))
      · show sentCount resQ + (if writer.running = true then 0 else 1) =
            (if (PPhase.finished = PPhase.joiningWriter ∨
              PPhase.finished = PPhase.finished) then 1 else 0)
        rw [if_pos (Or.inr rfl)]
        simpa using i9
      · intro _
        simpa using hwr
    next => simp at h
  case finished => simp [producerSteps] at h

lemma PInv_worker (c c' : PConfig) (i : Nat) (hinv : PInv c) (h : c' ∈ workerStepAt c i) :
    PInv c' := by
  obtain ⟨prod, inQ, resQ, workers, writer, phase, cap⟩ := c
  obtain ⟨i1, i2, i3, i4, i5, i6, i7, i8, i9, i10⟩ := hinv
  cases hg : workers[i]? with
  | none =>
    cases inQ with
    | nil => simp [workerStepAt, hg] at h
    | cons mm rest => simp [workerStepAt, hg] at h
  | some w =>
    cases inQ with
    | nil => simp [workerStepAt, hg] at h
    | cons mm rest =>
      simp only [workerStepAt, hg] at h
      split at h
      next hrun =>
        have hwin : w ∈ workers := by
          have hlt : i < workers.length := by
            by_contra hc
            rw [List.getElem?_eq_none (le_of_not_lt hc)] at hg
            exact Option.noConfusion hg
          have := List.getElem_mem (l := workers) (n := i) hlt
          rw [List.getElem?_eq_getElem hlt, Option.some.injEq] at hg
          rw [← hg]
          exact this
        cases mm with
        | sentinel =>
          rw [List.mem_singleton] at h
          subst h
          have hcnt := countP_set_run hg hrun (w.sentsSeen + 1)
          refine ⟨?_, i2, i3, ?_, ?_, i6, ?_, i8, i9, i10⟩
          · show (workers.set i _).length = cap
            rw [List.length_set]
            exact i1
          · show sentCount rest + sentCount prod =
              (workers.set i ⟨false, w.sentsSeen + 1⟩).countP (fun x => x.running)
            have h4 : sentCount (PMsg.sentinel :: rest) + sentCount prod =
                workers.countP (fun x => x.running) := i4
            rw [sentCount_cons_sent] at h4
            omega
          · intro w' hw'
            rcases List.mem_or_eq_of_mem_set hw' with hw2 | hw2
            · exact i5 w' hw2
            · subst hw2
              refine ⟨fun htrue => Bool.noConfusion htrue, fun _ => ?_⟩
              show w.sentsSeen + 1 = 1
              have := (i5 w hwin).1 hrun
              omega
          · intro hor
            have hdead := i7 hor w hwin
            rw [hdead] at hrun
            exact Bool.noConfusion hrun
        | item =>
          rw [List.mem_singleton] at h
          subst h
          refine ⟨i1, i2, i3, ?_, i5, i6, i7, i8, ?_, i10⟩
          · show sentCount rest + sentCount prod = workers.countP (fun x => x.running)
            have h4 : sentCount (PMsg.item :: rest) + sentCount prod =
                workers.countP (fun x => x.running) := i4
            rw [sentCount_cons_item] at h4
            exact h4
          · show sentCount (resQ ++ [PMsg.item]) + (if writer.running = true then 0 else 1) =
              (if phase = PPhase.joiningWriter ∨ phase = PPhase.finished then 1 else 0)
            rw [sentCount_append]
            have hz : sentCount [PMsg.item] = 0 := rfl
            have h9 : sentCount resQ + (if writer.running = true then 0 else 1) =
                (if phase = PPhase.joiningWriter ∨ phase = PPhase.finished then 1 else 0) := i9
            omega
      next hrun => simp at h

lemma PInv_writer (c c' : PConfig) (hinv : PInv c) (h : c' ∈ writerSteps c) : PInv c' := by
  obtain ⟨prod, inQ, resQ, workers, writer, phase, cap⟩ := c
  obtain ⟨i1, i2, i3, i4, i5, i6, i7, i8, i9, i10⟩ := hinv
  cases resQ with
  | nil => simp [writerSteps] at h
  | cons mm rest =>
    simp only [writerSteps] at h
    split at h
    next hrun =>
      cases mm with
      | sentinel =>
        rw [List.mem_singleton] at h
        subst h
        refine ⟨i1, i2, i3, i4, i5, i6, i7, ?_, ?_, ?_⟩
        · refine ⟨fun htrue => Bool.noConfusion htrue, fun _ => ?_⟩
          show writer.sentsSeen + 1 = 1
          have hseen : writer.sentsSeen = 0 := i8.1 hrun
          omega
        · show sentCount rest + (if (false : Bool) = true then 0 else 1) =
            (if phase = PPhase.joiningWriter ∨ phase = PPhase.finished then 1 else 0)
          have h9 : sentCount (PMsg.sentinel :: rest) +
              (if writer.running = true then 0 else 1) =
              (if phase = PPhase.joiningWriter ∨ phase = PPhase.finished then 1 else 0) := i9
          rw [sentCount_cons_sent, if_pos hrun] at h9
          rw [if_neg (fun hc => Bool.noConfusion hc)]
          omega
        · intro _
          rfl
      | item =>
        rw [List.mem_singleton] at h
        subst h
        refine ⟨i1, i2, i3, i4, i5, i6, i7, i8, ?_, i10⟩
        · show sentCount rest + (if writer.running = true then 0 else 1) =
            (if phase = PPhase.joiningWriter ∨ phase = PPhase.finished then 1 else 0)
          have h9 : sentCount (PMsg.item :: rest) +
              (if writer.running = true then 0 else 1) =
              (if phase = PPhase.joiningWriter ∨ phase = PPhase.finished then 1 else 0) := i9
          rw [sentCount_cons_item] at h9
          exact h9
    next hrun => simp at h

lemma PInv_step (c c' : PConfig) (hinv : PInv c) (h : c' ∈ pipelineSteps c) : PInv c' := by
  unfold pipelineSteps at h
  rcases List.mem_append.mp h with h1 | h1
  · rcases List.mem_append.mp h1 with h2 | h2
    · exact PInv_producer c c' hinv h2
    · obtain ⟨i, _, hw⟩ := List.mem_bind.mp h2
      exact PInv_worker c c' i hinv hw
  · exact PInv_writer c c' hinv h1

lemma pipeline_progress (c : PConfig) (hinv : PInv c) (hstuck : pipelineSteps c = []) :
    c.phase = PPhase.finished := by
  obtain ⟨prod, inQ, resQ, workers, writer, phase, cap⟩ := c
  obtain ⟨i1, i2, i3, i4, i5, i6, i7, i8, i9, i10⟩ := hinv
  rw [pipelineSteps] at hstuck
  obtain ⟨h12, hwrit⟩ := List.append_eq_nil.mp hstuck
  obtain ⟨hprod, hbind⟩ := List.append_eq_nil.mp h12
  have hwlen : workers.length = cap := i1
  cases phase
  case producing =>
    exfalso
    cases prod with
    | nil => simp [producerSteps] at hprod
    | cons mm rest =>
      simp only [producerSteps] at hprod
      split at hprod
      · simp at hprod
      next hnlt =>
        have hfull : cap ≤ inQ.length := le_of_not_lt hnlt
        have hrun_ex : 0 < workers.countP (fun x => x.running) := by
          by_contra hz
          have hz0 : workers.countP (fun x => x.running) = 0 := by omega
          have h4 : sentCount inQ + sentCount (mm :: rest) =
              workers.countP (fun x => x.running) := i4
          obtain ⟨a, b, hform, hcond⟩ := i3
          have hform' : mm :: rest =
              List.replicate a PMsg.item ++ List.replicate b PMsg.sentinel := hform
          have hsc : sentCount (mm :: rest) = b := by
            rw [hform', sentCount_append, sentCount_replicate_item,
              sentCount_replicate_sent]
            omega
          have hb0 : b = 0 := by omega
          have hlen : (mm :: rest).length = a + b := by
            rw [hform']
            simp
          have ha : 0 < a := by
            simp only [List.length_cons] at hlen
            omega
          have hcap : b = cap := hcond ha
          omega
        obtain ⟨w, hwmem, hwrun⟩ := List.countP_pos.mp hrun_ex
        obtain ⟨i, hgi⟩ := List.mem_iff_getElem?.mp hwmem
        have hi_lt : i < workers.length := by
          by_contra hc
          rw [List.getElem?_eq_none (le_of_not_lt hc)] at hgi
          exact Option.noConfusion hgi
        have hstep := List.bind_eq_nil.mp hbind i (List.mem_range.mpr hi_lt)
        cases inQ with
        | nil =>
          simp only [List.length_nil] at hfull
          omega
        | cons q qrest =>
          cases q <;> simp [workerStepAt, hgi, hwrun] at hstep
  case joiningWorkers =>
    simp only [producerSteps] at hprod
    split at hprod
    · simp at hprod
    next hnall =>
      exfalso
      have hex : ∃ w ∈ workers, w.running = true := by
        by_contra hno
        push_neg at hno
        apply hnall
        rw [List.all_eq_true]
        intro w hw
        have hne := hno w hw
        cases hb : w.running with
        | false => rfl
        | true => exact absurd hb hne
      obtain ⟨w, hwmem, hwrun⟩ := hex
      have hpd : prod = [] := i6 (fun hc => PPhase.noConfusion hc)
      have h4 : sentCount inQ + sentCount prod = workers.countP (fun x => x.running) := i4
      have hcp : 0 < workers.countP (fun x => x.running) :=
        List.countP_pos.mpr ⟨w, hwmem, by simpa using hwrun⟩
      rw [hpd] at h4
      have hnil : sentCount ([] : List PMsg) = 0 := rfl
      cases inQ with
      | nil =>
        rw [hnil] at h4
        simp [sentCount] at h4
        omega
      | cons q qrest =>
        obtain ⟨i, hgi⟩ := List.mem_iff_getElem?.mp hwmem
        have hi_lt : i < workers.length := by
          by_contra hc
          rw [List.getElem?_eq_none (le_of_not_lt hc)] at hgi
          exact Option.noConfusion hgi
        have hstep := List.bind_eq_nil.mp hbind i (List.mem_range.mpr hi_lt)
        cases q <;> simp [workerStepAt, hgi, hwrun] at hstep
  case putResultSentinel => simp [producerSteps] at hprod
  case joiningWriter =>
    simp only [producerSteps] at hprod
    split at hprod
    · simp at hprod
    next hwr =>
      exfalso
      have hrun : writer.running = true := by
        cases hb : writer.running with
        | true => rfl
        | false => rw [hb] at hwr; simp at hwr
      have h9 : sentCount resQ + (if writer.running = true then 0 else 1) = 1 := by
        have h9x : sentCount resQ + (if writer.running = true then 0 else 1) =
            (if (PPhase.joiningWriter = PPhase.joiningWriter ∨
              PPhase.joiningWriter = PPhase.finished) then 1 else 0) := i9
        rwa [if_pos (Or.inl rfl)] at h9x
      rw [if_pos hrun] at h9
      cases resQ with
      | nil => simp [sentCount] at h9
      | cons q qrest => cases q <;> simp [writerSteps, hrun] at hwrit
  case finished => rfl

/-- One interleaving step of the pipeline. -/
def PipeStep (a b : PConfig) : Prop := b ∈ pipelineSteps a

instance (a b : PConfig) : Decidable (PipeStep a b) := by
  unfold PipeStep
  infer_instance

lemma PInv_reach {a b : PConfig} (h : PInv a)
    (hr : Relation.ReflTransGen PipeStep a b) : PInv b := by
  induction hr with
  | refl => exact h
  | tail _ hbc ih => exact PInv_step _ _ ih hbc

lemma cap_producer (c c' : PConfig) (h : c' ∈ producerSteps c) : c'.cap = c.cap := by
  obtain ⟨prod, inQ, resQ, workers, writer, phase, cap⟩ := c
  cases phase
  case producing =>
    cases prod with
    | nil =>
      simp only [producerSteps, List.mem_singleton] at h
      subst h
      rfl
    | cons mm rest =>
      simp only [producerSteps] at h
      split at h
      · rw [List.mem_singleton] at h
        subst h
        rfl
      · simp at h
  case joiningWorkers =>
    simp only [producerSteps] at h
    split at h
    · rw [List.mem_singleton] at h
      subst h
      rfl
    · simp at h
  case putResultSentinel =>
    simp only [producerSteps, List.mem_singleton] at h
    subst h
    rfl
  case joiningWriter =>
    simp only [producerSteps] at h
    split at h
    · rw [List.mem_singleton] at h
      subst h
      rfl
    · simp at h
  case finished => simp [producerSteps] at h

lemma cap_worker (c c' : PConfig) (i : Nat) (h : c' ∈ workerStepAt c i) :
    c'.cap = c.cap := by
  cases hg : c.workers[i]? with
  | none =>
    cases hq : c.inQ with
    | nil => simp [workerStepAt, hg, hq] at h
    | cons mm rest => simp [workerStepAt, hg, hq] at h
  | some w =>
    cases hq : c.inQ with
    | nil => simp [workerStepAt, hg, hq] at h
    | cons mm rest =>
      simp only [workerStepAt, hg, hq] at h
      split at h
      next hrun =>
        cases mm with
        | sentinel =>
          rw [List.mem_singleton] at h
          subst h
          rfl
        | item =>
          rw [List.mem_singleton] at h
          subst h
          rfl
      next hrun => simp at h

lemma cap_writer (c c' : PConfig) (h : c' ∈ writerSteps c) : c'.cap = c.cap := by
  cases hq : c.resQ with
  | nil => simp [writerSteps, hq] at h
  | cons mm rest =>
    simp only [writerSteps, hq] at h
    split at h
    next hrun =>
      cases mm with
      | sentinel =>
        rw [List.mem_singleton] at h
        subst h
        rfl
      | item =>
        rw [List.mem_singleton] at h
        subst h
        rfl
    next hrun => simp at h

lemma cap_step {a b : PConfig} (h : PipeStep a b) : b.cap = a.cap := by
  unfold PipeStep pipelineSteps at h
  rcases List.mem_append.mp h with h1 | h1
  · rcases List.mem_append.mp h1 with h2 | h2
    · exact cap_producer a b h2
    · obtain ⟨i, _, hw⟩ := List.mem_bind.mp h2
      exact cap_worker a b i hw
  · exact cap_writer a b h1

lemma cap_reach {a b : PConfig} (hr : Relation.ReflTransGen PipeStep a b) :
    b.cap = a.cap := by
  induction hr with
  | refl => rfl
  | tail _ hbc ih => rw [cap_step hbc, ih]

lemma sum_sentsSeen {l : List ProcSt} (h : ∀ w ∈ l, w.sentsSeen = 1) :
    (l.map (fun w => w.sentsSeen)).sum = l.length := by
  induction l with
  | nil => rfl
  | cons a t ih =>
    simp only [List.map_cons, List.sum_cons, List.length_cons, h a (List.mem_cons_self a t),
      ih (fun w hw => h w (List.mem_cons_of_mem a hw))]
    omega

/-- Claim C10: for every worker count n >= 1 and record count m >= 0,
the pipeline protocol terminates under every interleaving — no run is
infinite, and every reachable configuration with no enabled transition
is the fully finished one: the producer has enqueued its one sentinel
per worker (built into the stream) and all of them have been consumed,
every worker has consumed exactly one sentinel and exited, the writer
has consumed exactly the one sentinel put on the results queue after the
workers were joined, and the total of worker-consumed sentinels is n. -/
theorem claim_C10 (n m : Nat) (hn : 1 ≤ n) :
    (∀ f : Nat → PConfig, f 0 = pipelineInit n m →
      (∀ i, f (i + 1) ∈ pipelineSteps (f i)) → False) ∧
    (∀ c : PConfig, Relation.ReflTransGen PipeStep (pipelineInit n m) c →
      pipelineSteps c = [] →
      c.phase = PPhase.finished ∧
      (∀ w ∈ c.workers, w.running = false ∧ w.sentsSeen = 1) ∧
      c.writer.running = false ∧ c.writer.sentsSeen = 1 ∧
      (c.workers.map (fun w => w.sentsSeen)).sum = n) := by
  constructor
  · intro f h0 hstep
    have hdec : ∀ i, pmeasure (f (i + 1)) < pmeasure (f i) := fun i =>
      pipelineSteps_measure _ _ (hstep i)
    have hle : ∀ i, pmeasure (f i) + i ≤ pmeasure (f 0) := by
      intro i
      induction i with
      | zero => omega
      | succ k ih =>
        have := hdec k
        omega
    have := hle (pmeasure (f 0) + 1)
    omega
  · intro c hreach hstuck
    have hinv : PInv c := PInv_reach (PInv_init n m hn) hreach
    have hfin : c.phase = PPhase.finished := pipeline_progress c hinv hstuck
    have hdead : ∀ w ∈ c.workers, w.running = false :=
      hinv.wdead (Or.inr (Or.inr hfin))
    have hwseen : ∀ w ∈ c.workers, w.sentsSeen = 1 := fun w hw =>
      (hinv.wcount w hw).2 (hdead w hw)
    have hwr : c.writer.running = false := hinv.wrFin hfin
    refine ⟨hfin, fun w hw => ⟨hdead w hw, hwseen w hw⟩, hwr, hinv.wrcount.2 hwr, ?_⟩
    rw [sum_sentsSeen hwseen, hinv.wlen, cap_reach hreach]
    rfl

def exC10c1 : PConfig :=
  ⟨[], [PMsg.sentinel], [], [⟨true, 0⟩], ⟨true, 0⟩, PPhase.producing, 1⟩

def exC10c2 : PConfig := ⟨[], [], [], [⟨false, 1⟩], ⟨true, 0⟩, PPhase.producing, 1⟩

def exC10c3 : PConfig := ⟨[], [], [], [⟨false, 1⟩], ⟨true, 0⟩, PPhase.joiningWorkers, 1⟩

def exC10c4 : PConfig := ⟨[], [], [], [⟨false, 1⟩], ⟨true, 0⟩, PPhase.putResultSentinel, 1⟩

def exC10c5 : PConfig :=
  ⟨[], [], [PMsg.sentinel], [⟨false, 1⟩], ⟨true, 0⟩, PPhase.joiningWriter, 1⟩

def exC10c6 : PConfig := ⟨[], [], [], [⟨false, 1⟩], ⟨false, 1⟩, PPhase.joiningWriter, 1⟩

def exC10final : PConfig := ⟨[], [], [], [⟨false, 1⟩], ⟨false, 1⟩, PPhase.finished, 1⟩

/-- Claim C10, witness: the concrete complete run of the protocol with
one worker and zero records, ending stuck in the finished configuration
with every sentinel consumed. -/
theorem claim_C10_witness :
    (1 : Nat) ≤ 1 ∧ pipelineSteps exC10final = [] ∧
    (exC10final.phase = PPhase.finished ∧
      (∀ w ∈ exC10final.workers, w.running = false ∧ w.sentsSeen = 1) ∧
      exC10final.writer.running = false ∧ exC10final.writer.sentsSeen = 1 ∧
      (exC10final.workers.map (fun w => w.sentsSeen)).sum = 1) :=
  ⟨by decide, by decide,
    (claim_C10 1 0 (by decide)).2 exC10final
      (Relation.ReflTransGen.head (show PipeStep (pipelineInit 1 0) exC10c1 by decide)
        (Relation.ReflTransGen.head (show PipeStep exC10c1 exC10c2 by decide)
          (Relation.ReflTransGen.head (show PipeStep exC10c2 exC10c3 by decide)
            (Relation.ReflTransGen.head (show PipeStep exC10c3 exC10c4 by decide)
              (Relation.ReflTransGen.head (show PipeStep exC10c4 exC10c5 by decide)
                (Relation.ReflTransGen.head (show PipeStep exC10c5 exC10c6 by decide)
                  (Relation.ReflTransGen.head
                    (show PipeStep exC10c6 exC10final by decide)
                    Relation.ReflTransGen.refl)))))))
      (by decide)⟩
